import Mathlib

/-!
Verification of the `nwb_query` time-interval query engine.

The source represents sets of closed real time intervals (class
`TimeIntervals`, backed by the `python-intervals` library) and three data
variants over them (`PointData`, `ContinuousData`, `EventData`).  We embed
the interval algebra over `ℚ`: a `TimeIntervals` value is modelled by its
backend's canonical list of closed atomic intervals, i.e. a list of pairs
`(lo, hi)` that is sorted, pairwise separated and with `lo ≤ hi`; the empty
set is the empty list (the backend stores a special degenerate atomic
`(+inf, -inf)` in that case, which we model explicitly where it leaks out,
via the `XR` type below).
-/

namespace NwbQuery

/-- Python exception kinds raised by the modelled code paths. -/
inductive PyError where
  | valueError
  | typeError
  | attributeError
  | indexError
deriving DecidableEq, Repr

/-- Extended rationals: the backend's bound values, which include the
infinities used by its representation of the empty interval
(`(+inf, -inf)`), and by numpy float arithmetic on `to_array` output. -/
inductive XR where
  | ninf
  | fin (q : ℚ)
  | pinf
deriving DecidableEq, Repr

/-- `x < y` on backend bound values (numpy float comparison). -/
def XR.ltb : XR → XR → Bool
  | .ninf, .ninf => false
  | .ninf, _ => true
  | .fin _, .ninf => false
  | .fin a, .fin b => decide (a < b)
  | .fin _, .pinf => true
  | .pinf, _ => false

/-- `x ≤ y` on backend bound values (numpy float comparison). -/
def XR.leb : XR → XR → Bool
  | .ninf, _ => true
  | .fin _, .ninf => false
  | .fin a, .fin b => decide (a ≤ b)
  | .fin _, .pinf => true
  | .pinf, .pinf => true
  | .pinf, _ => false

/-- Subtraction on backend bound values, as numpy float subtraction.  Only
the finite/finite and `(-inf) - (+inf)` cases are ever produced by
`durations` (the two same-infinity cases are NaN in floats and unreachable
from `to_array` rows, which are either finite or the pair `(+inf, -inf)`). -/
def XR.sub : XR → XR → XR
  | .fin a, .fin b => .fin (a - b)
  | .ninf, .pinf => .ninf
  | .ninf, .fin _ => .ninf
  | .ninf, .ninf => .ninf
  | .pinf, _ => .pinf
  | .fin _, .ninf => .pinf
  | .fin _, .pinf => .ninf

/-- Union of the canonical interval list `c` with one closed interval
`[a, b]` (`a ≤ b`), merging overlapping or touching atomics: the effect of
`intervals | iv.closed(a, b)` on the backend's canonical form. -/
def insertIvl : List (ℚ × ℚ) → ℚ → ℚ → List (ℚ × ℚ)
  | [], a, b => [(a, b)]
  | (lo, hi) :: rest, a, b =>
    if b < lo then (a, b) :: (lo, hi) :: rest
    else if hi < a then (lo, hi) :: insertIvl rest a b
    else insertIvl rest (min a lo) (max b hi)

/-- One step of `TimeIntervals.__make_intervals`: union the accumulated
interval set with `iv.closed(*ivl)` for one row.  A row with start > end is
an empty interval in the backend (`iv.closed(a, b).is_empty()` holds, no
exception is raised: `iv.empty()` itself is the reversed pair
`(+inf, -inf)`), so the union with it is a no-op. -/
def unionStep (acc : List (ℚ × ℚ)) (r : ℚ × ℚ) : List (ℚ × ℚ) :=
  if r.1 ≤ r.2 then insertIvl acc r.1 r.2 else acc

/-- Model of `TimeIntervals.__make_intervals` on an m×2 bounds array:
fold closed-interval union over the rows
(`intervals = intervals | iv.closed(*ivl)`). -/
def makeIntervals (rows : List (ℚ × ℚ)) : List (ℚ × ℚ) :=
  rows.foldl unionStep []

/-- Model of `TimeIntervals.to_array`: one `[lower, upper]` row per atomic
interval.  The backend represents the empty set by the single degenerate
atomic `(+inf, -inf)` (see the comment in `TimeIntervals.__len__`), so an
empty `TimeIntervals` leaks that row instead of a 0×2 array. -/
def toArrayX (c : List (ℚ × ℚ)) : List (XR × XR) :=
  if c.isEmpty then [(XR.pinf, XR.ninf)]
  else c.map (fun p => (XR.fin p.1, XR.fin p.2))

/-- Model of `TimeIntervals.durations`: `np.diff(to_array(), axis=1)`,
i.e. `upper - lower` for each row of `to_array`. -/
def durationsX (c : List (ℚ × ℚ)) : List XR :=
  (toArrayX c).map (fun r => XR.sub r.2 r.1)

/-- `len` of the backend `Interval` object: it always holds at least one
atomic; the empty set is stored as one degenerate atomic, so its backend
length is 1. -/
def backendLen (c : List (ℚ × ℚ)) : Nat :=
  if c.isEmpty then 1 else c.length

/-- Model of `TimeIntervals.__len__`: special-cases the backend's
degenerate empty representation to return 0. -/
def tiLen (c : List (ℚ × ℚ)) : Nat :=
  if c.isEmpty then 0 else backendLen c

/-- `t` lies in the closed interval `p`. -/
def memIvl (t : ℚ) (p : ℚ × ℚ) : Prop := p.1 ≤ t ∧ t ≤ p.2

/-- Membership of a time in an interval list: model of
`TimeIntervals.__contains__` (closed bounds; the degenerate empty atomic
contains no point). -/
def containsT (c : List (ℚ × ℚ)) (t : ℚ) : Prop := ∃ p ∈ c, memIvl t p

instance (c : List (ℚ × ℚ)) (t : ℚ) : Decidable (containsT c t) := by
  unfold containsT memIvl; infer_instance

/-- Boolean membership test, as used inside list comprehensions
(`t in query_intervals`). -/
def containsB (c : List (ℚ × ℚ)) (t : ℚ) : Bool :=
  c.any (fun p => decide (p.1 ≤ t) && decide (t ≤ p.2))

/-- Model of `TimeIntervals.__and__`: the backend intersects every pair of
atomics (empty results are dropped by the `Interval` constructor, which
re-canonicalizes). -/
def interIvls (c d : List (ℚ × ℚ)) : List (ℚ × ℚ) :=
  makeIntervals (c.flatMap (fun p => d.map (fun q => (max p.1 q.1, min p.2 q.2))))

/-- Model of `TimeIntervals.__or__`: the backend collects the atomics of
both sides and re-canonicalizes. -/
def unionIvls (c d : List (ℚ × ℚ)) : List (ℚ × ℚ) :=
  makeIntervals (c ++ d)

/-- The backend's canonical-form invariant: atomics are sorted, pairwise
separated (`hi < next lo`, touching closed intervals having been merged)
and each is nonempty (`lo ≤ hi`). -/
def Canonical (c : List (ℚ × ℚ)) : Prop :=
  c.Pairwise (fun p q => p.2 < q.1) ∧ ∀ p ∈ c, p.1 ≤ p.2

/-! ### Basic lemmas about `insertIvl` and `makeIntervals` -/

theorem insertIvl_valid : ∀ (c : List (ℚ × ℚ)) (a b : ℚ), a ≤ b →
    (∀ p ∈ c, p.1 ≤ p.2) → ∀ p ∈ insertIvl c a b, p.1 ≤ p.2 := by
  intro c
  induction c with
  | nil =>
    intro a b hab _ p hp
    simp only [insertIvl, List.mem_singleton] at hp
    subst hp; exact hab
  | cons head rest ih =>
    obtain ⟨lo, hi⟩ := head
    intro a b hab hval p hp
    simp only [insertIvl] at hp
    split_ifs at hp with h1 h2
    · simp only [List.mem_cons] at hp
      rcases hp with hp | hp | hp
      · subst hp; exact hab
      · subst hp; exact hval (lo, hi) (List.mem_cons_self _ _)
      · exact hval p (List.mem_cons_of_mem _ hp)
    · rcases List.mem_cons.mp hp with hp | hp
      · subst hp; exact hval (lo, hi) (List.mem_cons_self _ _)
      · exact ih a b hab (fun q hq => hval q (List.mem_cons_of_mem _ hq)) p hp
    · exact ih (min a lo) (max b hi)
        (le_trans (min_le_left a lo) (le_trans hab (le_max_left b hi)))
        (fun q hq => hval q (List.mem_cons_of_mem _ hq)) p hp

theorem insertIvl_lower_bound : ∀ (c : List (ℚ × ℚ)) (a b L : ℚ),
    (∀ p ∈ c, L < p.1) → L < a → ∀ p ∈ insertIvl c a b, L < p.1 := by
  intro c
  induction c with
  | nil =>
    intro a b L _ hLa p hp
    simp only [insertIvl, List.mem_singleton] at hp
    subst hp; exact hLa
  | cons head rest ih =>
    obtain ⟨lo, hi⟩ := head
    intro a b L hbd hLa p hp
    simp only [insertIvl] at hp
    split_ifs at hp with h1 h2
    · simp only [List.mem_cons] at hp
      rcases hp with hp | hp | hp
      · subst hp; exact hLa
      · subst hp; exact hbd (lo, hi) (List.mem_cons_self _ _)
      · exact hbd p (List.mem_cons_of_mem _ hp)
    · rcases List.mem_cons.mp hp with hp | hp
      · subst hp; exact hbd (lo, hi) (List.mem_cons_self _ _)
      · exact ih a b L (fun q hq => hbd q (List.mem_cons_of_mem _ hq)) hLa p hp
    · exact ih (min a lo) (max b hi) L
        (fun q hq => hbd q (List.mem_cons_of_mem _ hq))
        (lt_min hLa (hbd (lo, hi) (List.mem_cons_self _ _))) p hp

theorem insertIvl_canonical : ∀ (c : List (ℚ × ℚ)) (a b : ℚ), a ≤ b →
    Canonical c → Canonical (insertIvl c a b) := by
  intro c
  induction c with
  | nil =>
    intro a b hab _
    exact ⟨List.pairwise_singleton _ _, by
      intro p hp; simp only [insertIvl, List.mem_singleton] at hp; subst hp; exact hab⟩
  | cons head rest ih =>
    obtain ⟨lo, hi⟩ := head
    intro a b hab hc
    obtain ⟨hpw, hval⟩ := hc
    rw [List.pairwise_cons] at hpw
    obtain ⟨hsep, hpwrest⟩ := hpw
    show Canonical (insertIvl ((lo, hi) :: rest) a b)
    simp only [insertIvl]
    split_ifs with h1 h2
    · refine ⟨?_, ?_⟩
      · rw [List.pairwise_cons]
        refine ⟨?_, ?_⟩
        · intro q hq
          rcases List.mem_cons.mp hq with hq | hq
          · subst hq; exact h1
          · exact lt_of_lt_of_le h1
              (le_trans (hval (lo, hi) (List.mem_cons_self _ _)) (le_of_lt (hsep q hq)))
        · rw [List.pairwise_cons]; exact ⟨hsep, hpwrest⟩
      · intro p hp
        rcases List.mem_cons.mp hp with hp | hp
        · subst hp; exact hab
        · exact hval p hp
    · have hrest : Canonical (insertIvl rest a b) :=
        ih a b hab ⟨hpwrest, fun q hq => hval q (List.mem_cons_of_mem _ hq)⟩
      refine ⟨?_, ?_⟩
      · rw [List.pairwise_cons]
        refine ⟨?_, hrest.1⟩
        intro q hq
        exact insertIvl_lower_bound rest a b hi hsep h2 q hq
      · intro p hp
        rcases List.mem_cons.mp hp with hp | hp
        · subst hp; exact hval (lo, hi) (List.mem_cons_self _ _)
        · exact insertIvl_valid rest a b hab
            (fun q hq => hval q (List.mem_cons_of_mem _ hq)) p hp
    · exact ih (min a lo) (max b hi)
        (le_trans (min_le_left a lo) (le_trans hab (le_max_left b hi)))
        ⟨hpwrest, fun q hq => hval q (List.mem_cons_of_mem _ hq)⟩

theorem containsT_cons (p : ℚ × ℚ) (c : List (ℚ × ℚ)) (t : ℚ) :
    containsT (p :: c) t ↔ memIvl t p ∨ containsT c t := by
  simp only [containsT, List.mem_cons]
  constructor
  · rintro ⟨q, hq | hq, hm⟩
    · subst hq; exact Or.inl hm
    · exact Or.inr ⟨q, hq, hm⟩
  · rintro (hm | ⟨q, hq, hm⟩)
    · exact ⟨p, Or.inl rfl, hm⟩
    · exact ⟨q, Or.inr hq, hm⟩

theorem containsT_nil (t : ℚ) : ¬ containsT [] t := by
  rintro ⟨p, hp, _⟩
  exact List.not_mem_nil p hp

theorem mem_insertIvl : ∀ (c : List (ℚ × ℚ)) (a b t : ℚ), a ≤ b →
    (containsT (insertIvl c a b) t ↔ containsT c t ∨ (a ≤ t ∧ t ≤ b)) := by
  intro c
  induction c with
  | nil =>
    intro a b t _
    simp only [insertIvl]
    rw [containsT_cons]
    simp only [memIvl]
    constructor
    · rintro (hm | hm)
      · exact Or.inr hm
      · exact absurd hm (containsT_nil t)
    · rintro (hm | hm)
      · exact absurd hm (containsT_nil t)
      · exact Or.inl hm
  | cons head rest ih =>
    obtain ⟨lo, hi⟩ := head
    intro a b t hab
    simp only [insertIvl]
    split_ifs with h1 h2
    · simp only [containsT_cons, memIvl]
      tauto
    · rw [containsT_cons, ih a b t hab, containsT_cons]
      tauto
    · push_neg at h1 h2
      have hmab : min a lo ≤ max b hi :=
        le_trans (min_le_left a lo) (le_trans hab (le_max_left b hi))
      rw [ih (min a lo) (max b hi) t hmab, containsT_cons]
      have hmerge : (min a lo ≤ t ∧ t ≤ max b hi) ↔
          ((lo ≤ t ∧ t ≤ hi) ∨ (a ≤ t ∧ t ≤ b)) := by
        rw [min_le_iff, le_max_iff]
        constructor
        · rintro ⟨hs1, hs2⟩
          rcases hs1 with ha | hl
          · rcases hs2 with hb | hh
            · exact Or.inr ⟨ha, hb⟩
            · by_cases hsb : t ≤ b
              · exact Or.inr ⟨ha, hsb⟩
              · push_neg at hsb
                exact Or.inl ⟨le_trans h1 hsb.le, hh⟩
          · rcases hs2 with hb | hh
            · by_cases hsa : a ≤ t
              · exact Or.inr ⟨hsa, hb⟩
              · push_neg at hsa
                exact Or.inl ⟨hl, le_trans hsa.le h2⟩
            · exact Or.inl ⟨hl, hh⟩
        · rintro (⟨hs1, hs2⟩ | ⟨hs1, hs2⟩)
          · exact ⟨Or.inr hs1, Or.inr hs2⟩
          · exact ⟨Or.inl hs1, Or.inl hs2⟩
      simp only [memIvl]
      rw [hmerge]
      tauto

/-! ### Canonicity, semantics and fixed point of `makeIntervals` -/

theorem canonical_nil : Canonical [] :=
  ⟨List.Pairwise.nil, by intro p hp; exact absurd hp (List.not_mem_nil p)⟩

theorem unionStep_canonical (acc : List (ℚ × ℚ)) (r : ℚ × ℚ)
    (h : Canonical acc) : Canonical (unionStep acc r) := by
  unfold unionStep
  split_ifs with hr
  · exact insertIvl_canonical acc r.1 r.2 hr h
  · exact h

theorem foldl_unionStep_canonical : ∀ (rows : List (ℚ × ℚ)) (acc : List (ℚ × ℚ)),
    Canonical acc → Canonical (rows.foldl unionStep acc) := by
  intro rows
  induction rows with
  | nil => intro acc h; exact h
  | cons r rows ih =>
    intro acc h
    exact ih (unionStep acc r) (unionStep_canonical acc r h)

theorem makeIntervals_canonical (rows : List (ℚ × ℚ)) :
    Canonical (makeIntervals rows) :=
  foldl_unionStep_canonical rows [] canonical_nil

theorem mem_unionStep (acc : List (ℚ × ℚ)) (r : ℚ × ℚ) (t : ℚ) :
    containsT (unionStep acc r) t ↔ containsT acc t ∨ memIvl t r := by
  unfold unionStep
  split_ifs with hr
  · rw [mem_insertIvl acc r.1 r.2 t hr]; rfl
  · push_neg at hr
    constructor
    · exact Or.inl
    · rintro (h | ⟨hm1, hm2⟩)
      · exact h
      · exact absurd (le_trans hm1 hm2) (not_le.mpr hr)

theorem foldl_unionStep_mem : ∀ (rows acc : List (ℚ × ℚ)) (t : ℚ),
    (containsT (rows.foldl unionStep acc) t ↔
      containsT acc t ∨ ∃ r ∈ rows, memIvl t r) := by
  intro rows
  induction rows with
  | nil =>
    intro acc t
    simp only [List.foldl_nil]
    constructor
    · exact Or.inl
    · rintro (h | ⟨r, hr, _⟩)
      · exact h
      · exact absurd hr (List.not_mem_nil r)
  | cons r rows ih =>
    intro acc t
    simp only [List.foldl_cons]
    rw [ih (unionStep acc r) t, mem_unionStep]
    simp only [List.mem_cons]
    constructor
    · rintro ((h | h) | ⟨q, hq, hm⟩)
      · exact Or.inl h
      · exact Or.inr ⟨r, Or.inl rfl, h⟩
      · exact Or.inr ⟨q, Or.inr hq, hm⟩
    · rintro (h | ⟨q, hq | hq, hm⟩)
      · exact Or.inl (Or.inl h)
      · subst hq; exact Or.inl (Or.inr hm)
      · exact Or.inr ⟨q, hq, hm⟩

/-- Semantics of `TimeIntervals` construction: a time lies in the
constructed interval set iff it lies in one of the (non-reversed) input
rows. -/
theorem mem_makeIntervals (rows : List (ℚ × ℚ)) (t : ℚ) :
    containsT (makeIntervals rows) t ↔ ∃ r ∈ rows, memIvl t r := by
  rw [makeIntervals, foldl_unionStep_mem rows [] t]
  constructor
  · rintro (h | h)
    · exact absurd h (containsT_nil t)
    · exact h
  · exact Or.inr

theorem insertIvl_append : ∀ (c : List (ℚ × ℚ)) (a b : ℚ), a ≤ b →
    (∀ p ∈ c, p.1 ≤ p.2) → (∀ p ∈ c, p.2 < a) →
    insertIvl c a b = c ++ [(a, b)] := by
  intro c
  induction c with
  | nil => intro a b _ _ _; rfl
  | cons head rest ih =>
    obtain ⟨lo, hi⟩ := head
    intro a b hab hval hlt
    have hhia : hi < a := hlt (lo, hi) (List.mem_cons_self _ _)
    have hlob : ¬ b < lo :=
      not_lt.mpr (le_trans (le_trans (hval (lo, hi) (List.mem_cons_self _ _)) hhia.le) hab)
    simp only [insertIvl, if_neg hlob, if_pos hhia]
    rw [ih a b hab (fun q hq => hval q (List.mem_cons_of_mem _ hq))
      (fun q hq => hlt q (List.mem_cons_of_mem _ hq))]
    rfl

theorem foldl_unionStep_fixpoint : ∀ (c acc : List (ℚ × ℚ)),
    Canonical (acc ++ c) → c.foldl unionStep acc = acc ++ c := by
  intro c
  induction c with
  | nil => intro acc _; simp
  | cons r c ih =>
    intro acc hc
    obtain ⟨hpw, hval⟩ := hc
    have hrval : r.1 ≤ r.2 :=
      hval r (List.mem_append_right acc (List.mem_cons_self _ _))
    have haccval : ∀ p ∈ acc, p.1 ≤ p.2 :=
      fun p hp => hval p (List.mem_append_left _ hp)
    have hsep : ∀ p ∈ acc, p.2 < r.1 := by
      intro p hp
      exact (List.pairwise_append.mp hpw).2.2 p hp r (List.mem_cons_self _ _)
    simp only [List.foldl_cons]
    have hstep : unionStep acc r = acc ++ [r] := by
      unfold unionStep
      rw [if_pos hrval]
      exact insertIvl_append acc r.1 r.2 hrval haccval hsep
    rw [hstep]
    have : Canonical ((acc ++ [r]) ++ c) := by
      rw [List.append_assoc]
      exact ⟨hpw, hval⟩
    rw [ih (acc ++ [r]) this, List.append_assoc]
    rfl

/-- Re-canonicalizing a canonical interval list is the identity. -/
theorem makeIntervals_fixpoint (c : List (ℚ × ℚ)) (h : Canonical c) :
    makeIntervals c = c := by
  rw [makeIntervals, foldl_unionStep_fixpoint c [] (by simpa using h)]
  rfl

/-! ### Atomic containment (`AtomicInterval in Interval`) -/

/-- The backend's atomic-in-interval containment: the closed interval `p`
lies inside a single atomic of `obs`.  This is the test
`EventData.__init__` runs on each atomic of `select_intervals`. -/
def Covered (p : ℚ × ℚ) (obs : List (ℚ × ℚ)) : Prop :=
  ∃ q ∈ obs, q.1 ≤ p.1 ∧ p.2 ≤ q.2

instance (p : ℚ × ℚ) (obs : List (ℚ × ℚ)) : Decidable (Covered p obs) := by
  unfold Covered; infer_instance

theorem insertIvl_coversNew : ∀ (c : List (ℚ × ℚ)) (a b : ℚ),
    ∃ q ∈ insertIvl c a b, q.1 ≤ a ∧ b ≤ q.2 := by
  intro c
  induction c with
  | nil =>
    intro a b
    exact ⟨(a, b), List.mem_singleton.mpr rfl, le_refl a, le_refl b⟩
  | cons head rest ih =>
    obtain ⟨lo, hi⟩ := head
    intro a b
    simp only [insertIvl]
    split_ifs with h1 h2
    · exact ⟨(a, b), List.mem_cons_self _ _, le_refl a, le_refl b⟩
    · obtain ⟨q, hq, hqa, hqb⟩ := ih a b
      exact ⟨q, List.mem_cons_of_mem _ hq, hqa, hqb⟩
    · obtain ⟨q, hq, hqa, hqb⟩ := ih (min a lo) (max b hi)
      exact ⟨q, hq, le_trans hqa (min_le_left a lo), le_trans (le_max_left b hi) hqb⟩

theorem insertIvl_coversOld : ∀ (c : List (ℚ × ℚ)) (a b : ℚ), ∀ p ∈ c,
    ∃ q ∈ insertIvl c a b, q.1 ≤ p.1 ∧ p.2 ≤ q.2 := by
  intro c
  induction c with
  | nil => intro a b p hp; exact absurd hp (List.not_mem_nil p)
  | cons head rest ih =>
    obtain ⟨lo, hi⟩ := head
    intro a b p hp
    simp only [insertIvl]
    split_ifs with h1 h2
    · exact ⟨p, List.mem_cons_of_mem _ hp, le_refl p.1, le_refl p.2⟩
    · rcases List.mem_cons.mp hp with hp | hp
      · subst hp
        exact ⟨(lo, hi), List.mem_cons_self _ _, le_refl lo, le_refl hi⟩
      · obtain ⟨q, hq, hqa, hqb⟩ := ih a b p hp
        exact ⟨q, List.mem_cons_of_mem _ hq, hqa, hqb⟩
    · rcases List.mem_cons.mp hp with hp | hp
      · subst hp
        obtain ⟨q, hq, hqa, hqb⟩ := insertIvl_coversNew rest (min a lo) (max b hi)
        exact ⟨q, hq, le_trans hqa (min_le_right a lo), le_trans (le_max_right b hi) hqb⟩
      · obtain ⟨q, hq, hqa, hqb⟩ := ih (min a lo) (max b hi) p hp
        exact ⟨q, hq, hqa, hqb⟩

theorem unionStep_coversAcc (acc : List (ℚ × ℚ)) (r p : ℚ × ℚ) (h : Covered p acc) :
    Covered p (unionStep acc r) := by
  obtain ⟨q, hq, hqa, hqb⟩ := h
  unfold unionStep
  split_ifs with hr
  · obtain ⟨q2, hq2, hq2a, hq2b⟩ := insertIvl_coversOld acc r.1 r.2 q hq
    exact ⟨q2, hq2, le_trans hq2a hqa, le_trans hqb hq2b⟩
  · exact ⟨q, hq, hqa, hqb⟩

theorem foldl_unionStep_coversAcc : ∀ (rows acc : List (ℚ × ℚ)) (p : ℚ × ℚ),
    Covered p acc → Covered p (rows.foldl unionStep acc) := by
  intro rows
  induction rows with
  | nil => intro acc p h; exact h
  | cons r rows ih =>
    intro acc p h
    exact ih (unionStep acc r) p (unionStep_coversAcc acc r p h)

/-- Every valid input row of `makeIntervals` ends up inside a single atomic
of the canonical result. -/
theorem makeIntervals_covers : ∀ (rows : List (ℚ × ℚ)), ∀ r ∈ rows, r.1 ≤ r.2 →
    Covered r (makeIntervals rows) := by
  have main : ∀ (rows acc : List (ℚ × ℚ)), ∀ r ∈ rows, r.1 ≤ r.2 →
      Covered r (rows.foldl unionStep acc) := by
    intro rows
    induction rows with
    | nil => intro acc r hr; exact absurd hr (List.not_mem_nil r)
    | cons s rows ih =>
      intro acc r hr hval
      rcases List.mem_cons.mp hr with hr | hr
      · subst hr
        simp only [List.foldl_cons]
        apply foldl_unionStep_coversAcc
        unfold unionStep
        rw [if_pos hval]
        obtain ⟨q, hq, hqa, hqb⟩ := insertIvl_coversNew acc r.1 r.2
        exact ⟨q, hq, hqa, hqb⟩
      · exact ih (unionStep acc s) r hr hval
  intro rows r hr hval
  exact main rows [] r hr hval

/-- Two atomics of a pairwise-separated list sharing a point are equal. -/
theorem sep_point_eq : ∀ (obs : List (ℚ × ℚ)),
    obs.Pairwise (fun p q => p.2 < q.1) →
    ∀ q1 ∈ obs, ∀ q2 ∈ obs, ∀ t : ℚ, memIvl t q1 → memIvl t q2 → q1 = q2 := by
  intro obs
  induction obs with
  | nil => intro _ q1 hq1; exact absurd hq1 (List.not_mem_nil q1)
  | cons q rest ih =>
    intro hpw q1 hq1 q2 hq2 t hm1 hm2
    rw [List.pairwise_cons] at hpw
    obtain ⟨hsep, hpwrest⟩ := hpw
    rcases List.mem_cons.mp hq1 with he1 | hr1
    · rcases List.mem_cons.mp hq2 with he2 | hr2
      · rw [he1, he2]
      · subst he1
        exact absurd (lt_of_le_of_lt (le_trans hm2.1 hm1.2) (hsep q2 hr2))
          (lt_irrefl _)
    · rcases List.mem_cons.mp hq2 with he2 | hr2
      · subst he2
        exact absurd (lt_of_lt_of_le (hsep q1 hr1) (le_trans hm1.1 hm2.2))
          (lt_irrefl _)
      · exact ih hpwrest q1 hr1 q2 hr2 t hm1 hm2

theorem unionStep_valid (acc : List (ℚ × ℚ)) (r : ℚ × ℚ)
    (hval : ∀ p ∈ acc, p.1 ≤ p.2) : ∀ p ∈ unionStep acc r, p.1 ≤ p.2 := by
  unfold unionStep
  split_ifs with hr
  · exact insertIvl_valid acc r.1 r.2 hr hval
  · exact hval

theorem insertIvl_covered : ∀ (c : List (ℚ × ℚ)) (a b : ℚ) (obs : List (ℚ × ℚ)),
    obs.Pairwise (fun p q => p.2 < q.1) → a ≤ b → (∀ p ∈ c, p.1 ≤ p.2) →
    Covered (a, b) obs → (∀ p ∈ c, Covered p obs) →
    ∀ r ∈ insertIvl c a b, Covered r obs := by
  intro c
  induction c with
  | nil =>
    intro a b obs _ _ _ hcab _ r hr
    simp only [insertIvl, List.mem_singleton] at hr
    subst hr; exact hcab
  | cons head rest ih =>
    obtain ⟨lo, hi⟩ := head
    intro a b obs hpw hab hval hcab hcov r hr
    simp only [insertIvl] at hr
    split_ifs at hr with h1 h2
    · simp only [List.mem_cons] at hr
      rcases hr with hr | hr | hr
      · subst hr; exact hcab
      · subst hr; exact hcov (lo, hi) (List.mem_cons_self _ _)
      · exact hcov r (List.mem_cons_of_mem _ hr)
    · rcases List.mem_cons.mp hr with hr | hr
      · subst hr; exact hcov (lo, hi) (List.mem_cons_self _ _)
      · exact ih a b obs hpw hab (fun q hq => hval q (List.mem_cons_of_mem _ hq))
          hcab (fun q hq => hcov q (List.mem_cons_of_mem _ hq)) r hr
    · push_neg at h1 h2
      have hlohi : lo ≤ hi := hval (lo, hi) (List.mem_cons_self _ _)
      obtain ⟨q, hq, hqa, hqb⟩ := hcab
      obtain ⟨q2, hq2, hq2a, hq2b⟩ := hcov (lo, hi) (List.mem_cons_self _ _)
      have humem1 : memIvl (max a lo) (a, b) :=
        ⟨le_max_left a lo, max_le hab h1⟩
      have humem2 : memIvl (max a lo) (lo, hi) :=
        ⟨le_max_right a lo, max_le h2 hlohi⟩
      have hqeq : q = q2 :=
        sep_point_eq obs hpw q hq q2 hq2 (max a lo)
          ⟨le_trans hqa humem1.1, le_trans humem1.2 hqb⟩
          ⟨le_trans hq2a humem2.1, le_trans humem2.2 hq2b⟩
      have hcmerge : Covered (min a lo, max b hi) obs := by
        refine ⟨q, hq, ?_, ?_⟩
        · exact le_min hqa (hqeq ▸ hq2a)
        · exact max_le hqb (hqeq ▸ hq2b)
      exact ih (min a lo) (max b hi) obs hpw
        (le_trans (min_le_left a lo) (le_trans hab (le_max_left b hi)))
        (fun p hp => hval p (List.mem_cons_of_mem _ hp)) hcmerge
        (fun p hp => hcov p (List.mem_cons_of_mem _ hp)) r hr

theorem foldl_unionStep_covered : ∀ (rows acc obs : List (ℚ × ℚ)),
    obs.Pairwise (fun p q => p.2 < q.1) →
    (∀ p ∈ acc, p.1 ≤ p.2) → (∀ p ∈ acc, Covered p obs) →
    (∀ r ∈ rows, r.1 ≤ r.2 → Covered r obs) →
    ∀ p ∈ rows.foldl unionStep acc, Covered p obs := by
  intro rows
  induction rows with
  | nil => intro acc obs _ _ hcov _ p hp; exact hcov p hp
  | cons r rows ih =>
    intro acc obs hpw hval hcov hrows p hp
    simp only [List.foldl_cons] at hp
    refine ih (unionStep acc r) obs hpw (unionStep_valid acc r hval) ?_
      (fun s hs hv => hrows s (List.mem_cons_of_mem _ hs) hv) p hp
    intro s hs
    unfold unionStep at hs
    split_ifs at hs with hr
    · exact insertIvl_covered acc r.1 r.2 obs hpw hr hval
        (hrows r (List.mem_cons_self _ _) hr) hcov s hs
    · exact hcov s hs

/-- If every valid input row lies inside a single atomic of the
pairwise-separated list `obs`, so does every atomic of the canonical
result of `makeIntervals`. -/
theorem makeIntervals_covered (rows obs : List (ℚ × ℚ))
    (hpw : obs.Pairwise (fun p q => p.2 < q.1))
    (hrows : ∀ r ∈ rows, r.1 ≤ r.2 → Covered r obs) :
    ∀ p ∈ makeIntervals rows, Covered p obs :=
  foldl_unionStep_covered rows [] obs hpw
    (fun p hp => absurd hp (List.not_mem_nil p))
    (fun p hp => absurd hp (List.not_mem_nil p)) hrows

/-! ### Data variants -/

/-- Model of `PointData`: event times, observation support, optional
per-event marks.  Instances with attached marks arise from
`mark_with_ContinuousData`, which assigns `result_pp.marks` directly. -/
structure PointData where
  event_times : List ℚ
  obs_intervals : List (ℚ × ℚ)
  marks : Option (List ℚ)
deriving DecidableEq, Repr

/-- numpy truthiness of a 1-d array (a bare `if marks:`): an empty array
is falsy, a one-element array has the truthiness of its element, and any
larger array raises `ValueError` (ambiguous truth value). -/
def npTruthy (xs : List ℚ) : Except PyError Bool :=
  match xs with
  | [] => .ok false
  | [x] => .ok (decide (x ≠ 0))
  | _ => .error .valueError

/-- Model of `PointData.__init__` with an ndarray (or absent) `marks`
argument.  The guards are `if marks and not isinstance(marks, np.ndarray)`
and `if marks and not (marks.shape[0] == self.event_times.shape[0])`: the
bare `if marks` evaluates numpy truthiness (raising `ValueError` for
arrays of more than one element), and the second guard reads
`self.event_times` before the assignment two lines below it, so a truthy
one-element `marks` raises `AttributeError`. -/
def mkPointData (event_times : List ℚ) (obs_intervals : List (ℚ × ℚ))
    (marks : Option (List ℚ)) : Except PyError PointData :=
  match marks with
  | none => .ok ⟨event_times, obs_intervals, none⟩
  | some ms =>
    match npTruthy ms with
    | .error e => .error e
    | .ok true => .error .attributeError
    | .ok false => .ok ⟨event_times, obs_intervals, some ms⟩

/-- Model of `EventData`: selection windows layered on observation
support. -/
structure EventData where
  select_intervals : List (ℚ × ℚ)
  obs_intervals : List (ℚ × ℚ)
deriving DecidableEq, Repr

/-- The containment check of `EventData.__init__`:
`np.all([s_ivl in obs_intervals for s_ivl in select_intervals.intervals])`.
Each atomic of the selection must lie inside a single atomic of the
support.  For an empty selection the backend iterates its degenerate empty
atomic `(+inf, -inf)`, which the atomic-containment test accepts inside
any interval (and inside the empty interval); the model's empty list makes
the check vacuously true, matching. -/
def validSelB (sel obs : List (ℚ × ℚ)) : Bool :=
  sel.all (fun p => obs.any (fun q => decide (q.1 ≤ p.1) && decide (p.2 ≤ q.2)))

/-- Model of `EventData.__init__`: validates containment of
`select_intervals` in `obs_intervals`, raising `ValueError` otherwise. -/
def mkEventData (sel obs : List (ℚ × ℚ)) : Except PyError EventData :=
  if validSelB sel obs then .ok ⟨sel, obs⟩ else .error .valueError

theorem validSelB_iff (sel obs : List (ℚ × ℚ)) :
    validSelB sel obs = true ↔ ∀ p ∈ sel, Covered p obs := by
  simp only [validSelB, List.all_eq_true, List.any_eq_true, Bool.and_eq_true,
    decide_eq_true_eq, Covered]

/-- A `time_query` argument: either a `TimeIntervals` or an `EventData`
(whose `select_intervals` then acts as the query window). -/
inductive Query where
  | ti : List (ℚ × ℚ) → Query
  | ed : EventData → Query

/-- The effective query window: the intervals themselves for a
`TimeIntervals` query, and `select_intervals` for an `EventData` query
(both the support intersection and the membership test of
`EventData.__contains__` use the selection windows). -/
def Query.window : Query → List (ℚ × ℚ)
  | .ti w => w
  | .ed e => e.select_intervals

/-- Model of `PointData.time_query`: intersect the observation support
with the query window and keep the event times that lie in the query
window (`[t for t in self.event_times if t in query_intervals]`).  The
result is built by `PointData(event_times=..., obs_intervals=...)`, which
leaves `marks` at its default `None`. -/
def PointData.time_query (p : PointData) (q : Query) : PointData where
  event_times := p.event_times.filter (fun t => containsB q.window t)
  obs_intervals := interIvls p.obs_intervals q.window
  marks := none

/-- Model of the per-event loop in the `merge_obs_intervals=False` branch
of `PointData.mark_with_ContinuousData`.  For an event inside
`continuous_data.obs_intervals` the code runs
`result_marks.append(interpolator(event_t), 'extrapolate')`, and
`list.append` takes exactly one argument, so this raises `TypeError`;
events outside the support append a sentinel mark (modelled as `none`).
The `np.concatenate` following the loop is not modelled. -/
def noMergeMarkLoop (obs : List (ℚ × ℚ)) : List ℚ → Except PyError (List (Option ℚ))
  | [] => .ok []
  | t :: rest =>
    if containsB obs t then .error .typeError
    else
      match noMergeMarkLoop obs rest with
      | .ok ms => .ok (none :: ms)
      | .error e => .error e

/-- Model of `ContinuousData`: per-sample values (`α` is one sample, which
may itself be a vector), timestamps and observation support. -/
structure ContinuousData (α : Type) where
  data : List α
  timestamps : List ℚ
  obs_intervals : List (ℚ × ℚ)
deriving DecidableEq, Repr

/-- Model of `ContinuousData.__init__` (with the default
`find_gaps=False`): the guard `if not obs_intervals:` tests Python
truthiness, so an *empty* `obs_intervals` (`len() == 0`, hence falsy),
exactly like an absent one, is replaced by the single interval
`[timestamps[0], timestamps[-1]]` — and `timestamps[0]` raises
`IndexError` when `timestamps` is empty. -/
def mkContinuousData (data : List α) (ts : List ℚ) (obs : List (ℚ × ℚ)) :
    Except PyError (ContinuousData α) :=
  if obs.isEmpty then
    match ts.head?, ts.getLast? with
    | some t0, some tn => .ok ⟨data, ts, [(t0, tn)]⟩
    | _, _ => .error .indexError
  else .ok ⟨data, ts, obs⟩

/-- Python slice `xs[l:r]`. -/
def pySlice (l r : Nat) (xs : List α) : List α := (xs.take r).drop l

/-- `np.searchsorted(ts, v, side="left")` on ascending `ts`: the number of
entries strictly below `v` (for sorted input the binary search returns
exactly this count). -/
def ssLeft (ts : List ℚ) (v : XR) : Nat :=
  ts.countP (fun t => XR.ltb (XR.fin t) v)

/-- `np.searchsorted(ts, v, side="right")` on ascending `ts`: the number
of entries not above `v`. -/
def ssRight (ts : List ℚ) (v : XR) : Nat :=
  ts.countP (fun t => XR.leb (XR.fin t) v)

/-- Model of `ContinuousData.time_query`: intersect the support with the
query window, read the intervals back through `to_array` (including the
backend's degenerate `(+inf, -inf)` row when the intersection is empty),
slice `data` and `timestamps` between the searchsorted bounds of each row,
concatenate the slices in row order, and construct the result through
`ContinuousData.__init__`. -/
def ContinuousData.time_query (c : ContinuousData α) (q : Query) :
    Except PyError (ContinuousData α) :=
  let robs := interIvls c.obs_intervals q.window
  let rows := toArrayX robs
  let rdata := rows.flatMap
    (fun r => pySlice (ssLeft c.timestamps r.1) (ssRight c.timestamps r.2) c.data)
  let rts := rows.flatMap
    (fun r => pySlice (ssLeft c.timestamps r.1) (ssRight c.timestamps r.2) c.timestamps)
  mkContinuousData rdata rts robs

/-- `np.where(np.diff(func_of_data.astype(int8)) == 1)[0]`: the step
positions `i` with a false→true transition from sample `i` to `i + 1`. -/
def crossUp (fd : List Bool) : List Nat :=
  (List.range (fd.length - 1)).filter
    (fun i => !(fd.getD i false) && fd.getD (i + 1) false)

/-- `np.where(np.diff(func_of_data.astype(int8)) == -1)[0]`: the step
positions `i` with a true→false transition from sample `i` to `i + 1`. -/
def crossDown (fd : List Bool) : List Nat :=
  (List.range (fd.length - 1)).filter
    (fun i => fd.getD i false && !(fd.getD (i + 1) false))

/-- Rising-edge indices of a boolean trace: the false→true step positions
shifted by one (`np.where(df == 1)[0] + 1`), with index 0 prepended when
the trace starts true (`np.insert(up_crossings, 0, 0)`). -/
def upCrossings (fd : List Bool) : List Nat :=
  (if fd.head?.getD false then [0] else []) ++ (crossUp fd).map (fun i => i + 1)

/-- Falling-edge indices of a boolean trace: the true→false step positions
(`np.where(df == -1)[0]`), with the last index appended when the trace
ends true (`np.append(down_crossings, n - 1)`). -/
def downCrossings (fd : List Bool) : List Nat :=
  crossDown fd ++ (if fd.getLast?.getD false then [fd.length - 1] else [])

/-- Model of `ContinuousData.filter_intervals` with the default
`data_cols` (the predicate consumes one whole sample and yields one
boolean): zero samples yield an empty selection; otherwise the up/down
crossing indices of the boolean trace are mapped to timestamps, the
resulting bound rows build a `TimeIntervals`, and the result is
re-validated against the unchanged `obs_intervals` by
`EventData.__init__`. -/
def ContinuousData.filter_intervals (c : ContinuousData α) (f : α → Bool) :
    Except PyError EventData :=
  if c.data.isEmpty then mkEventData [] c.obs_intervals
  else
    let fd := c.data.map f
    let up_times := (upCrossings fd).map (fun i => c.timestamps.getD i 0)
    let down_times := (downCrossings fd).map (fun i => c.timestamps.getD i 0)
    mkEventData (makeIntervals (up_times.zip down_times)) c.obs_intervals

/-- Model of `EventData.__and__`/`intersect`: intersect the selection and
support layers independently, then reconstruct (re-validating). -/
def EventData.intersect (e1 e2 : EventData) : Except PyError EventData :=
  mkEventData (interIvls e1.select_intervals e2.select_intervals)
    (interIvls e1.obs_intervals e2.obs_intervals)

/-- Model of `EventData.__or__`/`union`: union the selection and support
layers independently, then reconstruct (re-validating). -/
def EventData.union (e1 e2 : EventData) : Except PyError EventData :=
  mkEventData (unionIvls e1.select_intervals e2.select_intervals)
    (unionIvls e1.obs_intervals e2.obs_intervals)

/-! ### Sorted slicing -/

theorem pySlice_countP_eq_filter : ∀ (ts : List ℚ) (lo hi : ℚ), lo ≤ hi →
    ts.Pairwise (· < ·) →
    pySlice (ts.countP (fun t => decide (t < lo))) (ts.countP (fun t => decide (t ≤ hi))) ts
      = ts.filter (fun t => decide (lo ≤ t) && decide (t ≤ hi)) := by
  intro ts
  induction ts with
  | nil => intro lo hi _ _; rfl
  | cons t rest ih =>
    intro lo hi hlohi hsorted
    rw [List.pairwise_cons] at hsorted
    obtain ⟨hlt, hrest⟩ := hsorted
    by_cases hta : t < lo
    · have htahi : t ≤ hi := le_trans hta.le hlohi
      have c1 : (t :: rest).countP (fun s => decide (s < lo))
          = rest.countP (fun s => decide (s < lo)) + 1 := by
        simp [List.countP_cons, hta]
      have c2 : (t :: rest).countP (fun s => decide (s ≤ hi))
          = rest.countP (fun s => decide (s ≤ hi)) + 1 := by
        simp [List.countP_cons, htahi]
      have f1 : (t :: rest).filter (fun s => decide (lo ≤ s) && decide (s ≤ hi))
          = rest.filter (fun s => decide (lo ≤ s) && decide (s ≤ hi)) := by
        simp [List.filter_cons, not_le.mpr hta]
      rw [c1, c2, f1]
      unfold pySlice
      rw [List.take_succ_cons, List.drop_succ_cons]
      exact ih lo hi hlohi hrest
    · push_neg at hta
      have hrest0 : rest.countP (fun s => decide (s < lo)) = 0 := by
        rw [List.countP_eq_zero]
        intro s hs
        simp only [decide_eq_true_eq, not_lt]
        exact le_trans hta (hlt s hs).le
      have c1 : (t :: rest).countP (fun s => decide (s < lo)) = 0 := by
        simp [List.countP_cons, not_lt.mpr hta, hrest0]
      by_cases hth : t ≤ hi
      · have c2 : (t :: rest).countP (fun s => decide (s ≤ hi))
            = rest.countP (fun s => decide (s ≤ hi)) + 1 := by
          simp [List.countP_cons, hth]
        have f1 : (t :: rest).filter (fun s => decide (lo ≤ s) && decide (s ≤ hi))
            = t :: rest.filter (fun s => decide (lo ≤ s) && decide (s ≤ hi)) := by
          simp [List.filter_cons, hta, hth]
        rw [c1, c2, f1]
        unfold pySlice
        rw [List.take_succ_cons, List.drop_zero]
        have hmain := ih lo hi hlohi hrest
        unfold pySlice at hmain
        rw [hrest0, List.drop_zero] at hmain
        rw [hmain]
      · push_neg at hth
        have hrest0h : rest.countP (fun s => decide (s ≤ hi)) = 0 := by
          rw [List.countP_eq_zero]
          intro s hs
          simp only [decide_eq_true_eq, not_le]
          exact lt_trans hth (hlt s hs)
        have c2 : (t :: rest).countP (fun s => decide (s ≤ hi)) = 0 := by
          simp [List.countP_cons, not_le.mpr hth, hrest0h]
        have f1 : (t :: rest).filter (fun s => decide (lo ≤ s) && decide (s ≤ hi)) = [] := by
          rw [List.filter_eq_nil_iff]
          intro s hs
          simp only [Bool.and_eq_true, decide_eq_true_eq, not_and, not_le]
          intro _
          rcases List.mem_cons.mp hs with hs | hs
          · subst hs; exact hth
          · exact lt_trans hth (hlt s hs)
        rw [c1, c2, f1]
        rfl

theorem flatMap_map_list (l : List α) (h : α → β) (g : β → List γ) :
    (l.map h).flatMap g = l.flatMap (fun x => g (h x)) := by
  induction l with
  | nil => rfl
  | cons x l ih => simp only [List.map_cons, List.flatMap_cons, ih]

theorem flatMap_congr_list (l : List α) (f g : α → List β)
    (h : ∀ x ∈ l, f x = g x) : l.flatMap f = l.flatMap g := by
  induction l with
  | nil => rfl
  | cons x l ih =>
    simp only [List.flatMap_cons]
    rw [h x (List.mem_cons_self _ _), ih (fun y hy => h y (List.mem_cons_of_mem _ hy))]

/-- Characterization of `ContinuousData.time_query` on strictly ascending
timestamps: when it returns, the result's support is the intersection of
the original support with the query window, and for each canonical
interval `[lo, hi]` of that intersection the result carries the timestamps
from the first one `≥ lo` through the last one `≤ hi` (i.e. exactly those
in `[lo, hi]`), and the data rows at the same index range, concatenated in
interval order. -/
theorem ContinuousData.time_query_spec {α : Type} (c : ContinuousData α) (q : Query)
    (r : ContinuousData α)
    (hsorted : c.timestamps.Pairwise (· < ·))
    (hok : c.time_query q = .ok r) :
    r.obs_intervals = interIvls c.obs_intervals q.window ∧
    r.timestamps = (interIvls c.obs_intervals q.window).flatMap
      (fun p => c.timestamps.filter (fun t => decide (p.1 ≤ t) && decide (t ≤ p.2))) ∧
    r.data = (interIvls c.obs_intervals q.window).flatMap
      (fun p => pySlice (c.timestamps.countP (fun t => decide (t < p.1)))
        (c.timestamps.countP (fun t => decide (t ≤ p.2))) c.data) := by
  have hcanon := makeIntervals_canonical
    (c.obs_intervals.flatMap (fun p => (q.window).map (fun w => (max p.1 w.1, min p.2 w.2))))
  simp only [ContinuousData.time_query] at hok
  by_cases hrobs : (interIvls c.obs_intervals q.window).isEmpty
  · exfalso
    rw [List.isEmpty_iff] at hrobs
    rw [hrobs] at hok
    have hrows : toArrayX [] = [(XR.pinf, XR.ninf)] := rfl
    rw [hrows] at hok
    have hssr : ssRight c.timestamps XR.ninf = 0 := by
      rw [ssRight, List.countP_eq_zero]
      intro t _
      simp [XR.leb]
    simp only [List.flatMap_cons, List.flatMap_nil, List.append_nil, hssr] at hok
    have hts : pySlice (ssLeft c.timestamps XR.pinf) 0 c.timestamps = [] := by
      simp [pySlice]
    have hdt : pySlice (ssLeft c.timestamps XR.pinf) 0 c.data = [] := by
      simp [pySlice]
    rw [hts, hdt] at hok
    simp [mkContinuousData] at hok
  · have hrows : toArrayX (interIvls c.obs_intervals q.window)
        = (interIvls c.obs_intervals q.window).map (fun p => (XR.fin p.1, XR.fin p.2)) := by
      rw [toArrayX, if_neg hrobs]
    rw [hrows, flatMap_map_list, flatMap_map_list] at hok
    have hred : ∀ (γ : Type) (xs : List γ) (p : ℚ × ℚ),
        pySlice (ssLeft c.timestamps (XR.fin p.1)) (ssRight c.timestamps (XR.fin p.2)) xs
          = pySlice (c.timestamps.countP (fun t => decide (t < p.1)))
              (c.timestamps.countP (fun t => decide (t ≤ p.2))) xs := by
      intro γ xs p
      rw [ssLeft, ssRight]
      simp only [XR.ltb, XR.leb]
    simp only [hred] at hok
    have hts : ((interIvls c.obs_intervals q.window).flatMap
        (fun p => pySlice (c.timestamps.countP (fun t => decide (t < p.1)))
          (c.timestamps.countP (fun t => decide (t ≤ p.2))) c.timestamps))
        = (interIvls c.obs_intervals q.window).flatMap
          (fun p => c.timestamps.filter (fun t => decide (p.1 ≤ t) && decide (t ≤ p.2))) := by
      apply flatMap_congr_list
      intro p hp
      exact pySlice_countP_eq_filter c.timestamps p.1 p.2
        ((makeIntervals_canonical _).2 p hp) hsorted
    rw [hts] at hok
    rw [mkContinuousData, if_neg hrobs] at hok
    cases hok
    exact ⟨rfl, rfl, rfl⟩

/-! ### Semantics of the interval algebra -/

theorem mem_interIvls (c d : List (ℚ × ℚ)) (t : ℚ) :
    containsT (interIvls c d) t ↔ containsT c t ∧ containsT d t := by
  rw [interIvls, mem_makeIntervals]
  constructor
  · rintro ⟨r, hr, hm⟩
    rw [List.mem_flatMap] at hr
    obtain ⟨p, hp, hr2⟩ := hr
    rw [List.mem_map] at hr2
    obtain ⟨w, hw, heq⟩ := hr2
    subst heq
    obtain ⟨hm1, hm2⟩ := hm
    rw [max_le_iff] at hm1
    rw [le_min_iff] at hm2
    exact ⟨⟨p, hp, hm1.1, hm2.1⟩, ⟨w, hw, hm1.2, hm2.2⟩⟩
  · rintro ⟨⟨p, hp, hm1⟩, ⟨w, hw, hm2⟩⟩
    refine ⟨(max p.1 w.1, min p.2 w.2), ?_, ?_⟩
    · rw [List.mem_flatMap]
      exact ⟨p, hp, List.mem_map.mpr ⟨w, hw, rfl⟩⟩
    · exact ⟨max_le hm1.1 hm2.1, le_min hm1.2 hm2.2⟩

theorem mem_unionIvls (c d : List (ℚ × ℚ)) (t : ℚ) :
    containsT (unionIvls c d) t ↔ containsT c t ∨ containsT d t := by
  rw [unionIvls, mem_makeIntervals]
  constructor
  · rintro ⟨r, hr, hm⟩
    rcases List.mem_append.mp hr with hr | hr
    · exact Or.inl ⟨r, hr, hm⟩
    · exact Or.inr ⟨r, hr, hm⟩
  · rintro (⟨r, hr, hm⟩ | ⟨r, hr, hm⟩)
    · exact ⟨r, List.mem_append_left _ hr, hm⟩
    · exact ⟨r, List.mem_append_right _ hr, hm⟩

/-! ### EventData algebra never fails on valid inputs -/

theorem EventData.intersect_ok (e1 e2 : EventData)
    (h1 : ∀ p ∈ e1.select_intervals, Covered p e1.obs_intervals)
    (h2 : ∀ p ∈ e2.select_intervals, Covered p e2.obs_intervals) :
    e1.intersect e2 = .ok ⟨interIvls e1.select_intervals e2.select_intervals,
      interIvls e1.obs_intervals e2.obs_intervals⟩ := by
  have hvalid : validSelB (interIvls e1.select_intervals e2.select_intervals)
      (interIvls e1.obs_intervals e2.obs_intervals) = true := by
    rw [validSelB_iff]
    apply makeIntervals_covered
    · exact (makeIntervals_canonical _).1
    · intro r hr hrval
      rw [List.mem_flatMap] at hr
      obtain ⟨p1, hp1, hr2⟩ := hr
      rw [List.mem_map] at hr2
      obtain ⟨p2, hp2, hreq⟩ := hr2
      obtain ⟨q1, hq1, hq1a, hq1b⟩ := h1 p1 hp1
      obtain ⟨q2, hq2, hq2a, hq2b⟩ := h2 p2 hp2
      have hw : (max q1.1 q2.1, min q1.2 q2.2) ∈
          e1.obs_intervals.flatMap
            (fun p => e2.obs_intervals.map (fun w => (max p.1 w.1, min p.2 w.2))) := by
        rw [List.mem_flatMap]
        exact ⟨q1, hq1, List.mem_map.mpr ⟨q2, hq2, rfl⟩⟩
      subst hreq
      have hwr1 : max q1.1 q2.1 ≤ max p1.1 p2.1 := max_le_max hq1a hq2a
      have hwr2 : min p1.2 p2.2 ≤ min q1.2 q2.2 := min_le_min hq1b hq2b
      have hwvalid : max q1.1 q2.1 ≤ min q1.2 q2.2 :=
        le_trans hwr1 (le_trans hrval hwr2)
      obtain ⟨qq, hqq, hqqa, hqqb⟩ := makeIntervals_covers _ _ hw hwvalid
      exact ⟨qq, hqq, le_trans hqqa hwr1, le_trans hwr2 hqqb⟩
  rw [EventData.intersect, mkEventData, if_pos hvalid]

theorem EventData.union_ok (e1 e2 : EventData)
    (h1 : ∀ p ∈ e1.select_intervals, Covered p e1.obs_intervals)
    (h2 : ∀ p ∈ e2.select_intervals, Covered p e2.obs_intervals) :
    e1.union e2 = .ok ⟨unionIvls e1.select_intervals e2.select_intervals,
      unionIvls e1.obs_intervals e2.obs_intervals⟩ := by
  have hvalid : validSelB (unionIvls e1.select_intervals e2.select_intervals)
      (unionIvls e1.obs_intervals e2.obs_intervals) = true := by
    rw [validSelB_iff]
    apply makeIntervals_covered
    · exact (makeIntervals_canonical _).1
    · intro r hr hrval
      rcases List.mem_append.mp hr with hr | hr
      · obtain ⟨q, hq, hqa, hqb⟩ := h1 r hr
        have hqmem : q ∈ e1.obs_intervals ++ e2.obs_intervals :=
          List.mem_append_left _ hq
        have hqval : q.1 ≤ q.2 := le_trans hqa (le_trans hrval hqb)
        obtain ⟨qq, hqq, hqqa, hqqb⟩ := makeIntervals_covers _ q hqmem hqval
        exact ⟨qq, hqq, le_trans hqqa hqa, le_trans hqb hqqb⟩
      · obtain ⟨q, hq, hqa, hqb⟩ := h2 r hr
        have hqmem : q ∈ e1.obs_intervals ++ e2.obs_intervals :=
          List.mem_append_right _ hq
        have hqval : q.1 ≤ q.2 := le_trans hqa (le_trans hrval hqb)
        obtain ⟨qq, hqq, hqqa, hqqb⟩ := makeIntervals_covers _ q hqmem hqval
        exact ⟨qq, hqq, le_trans hqqa hqa, le_trans hqb hqqb⟩
  rw [EventData.union, mkEventData, if_pos hvalid]

/-! ### Structure of the crossing indices -/

theorem crossUp_cons2 (b c : Bool) (rest : List Bool) :
    crossUp (b :: c :: rest) =
      (if (!b && c) then [0] else []) ++ (crossUp (c :: rest)).map (fun i => i + 1) := by
  unfold crossUp
  have hl : (b :: c :: rest).length - 1 = ((c :: rest).length - 1) + 1 := by simp
  rw [hl, List.range_succ_eq_map, List.filter_cons, List.filter_map]
  have hps : ((fun i => !(b :: c :: rest).getD i false && (b :: c :: rest).getD (i + 1) false)
      ∘ Nat.succ) = (fun i => !(c :: rest).getD i false && (c :: rest).getD (i + 1) false) := by
    funext i
    simp only [Function.comp_apply, Nat.succ_eq_add_one, List.getD_cons_succ]
  rw [hps]
  have hsucc : (List.map Nat.succ ((List.range ((c :: rest).length - 1)).filter
      (fun i => !(c :: rest).getD i false && (c :: rest).getD (i + 1) false)))
      = (List.map (fun i => i + 1) ((List.range ((c :: rest).length - 1)).filter
      (fun i => !(c :: rest).getD i false && (c :: rest).getD (i + 1) false))) := rfl
  rw [hsucc]
  cases b <;> cases c <;> simp

theorem crossDown_cons2 (b c : Bool) (rest : List Bool) :
    crossDown (b :: c :: rest) =
      (if (b && !c) then [0] else []) ++ (crossDown (c :: rest)).map (fun i => i + 1) := by
  unfold crossDown
  have hl : (b :: c :: rest).length - 1 = ((c :: rest).length - 1) + 1 := by simp
  rw [hl, List.range_succ_eq_map, List.filter_cons, List.filter_map]
  have hps : ((fun i => (b :: c :: rest).getD i false && !(b :: c :: rest).getD (i + 1) false)
      ∘ Nat.succ) = (fun i => (c :: rest).getD i false && !(c :: rest).getD (i + 1) false) := by
    funext i
    simp only [Function.comp_apply, Nat.succ_eq_add_one, List.getD_cons_succ]
  rw [hps]
  have hsucc : (List.map Nat.succ ((List.range ((c :: rest).length - 1)).filter
      (fun i => (c :: rest).getD i false && !(c :: rest).getD (i + 1) false)))
      = (List.map (fun i => i + 1) ((List.range ((c :: rest).length - 1)).filter
      (fun i => (c :: rest).getD i false && !(c :: rest).getD (i + 1) false))) := rfl
  rw [hsucc]
  cases b <;> cases c <;> simp

theorem upCrossings_cons_false (c : Bool) (rest : List Bool) :
    upCrossings (false :: c :: rest) = (upCrossings (c :: rest)).map (fun i => i + 1) := by
  unfold upCrossings
  rw [crossUp_cons2]
  cases c <;> simp [List.map_map]

theorem downCrossings_cons_false (c : Bool) (rest : List Bool) :
    downCrossings (false :: c :: rest) = (downCrossings (c :: rest)).map (fun i => i + 1) := by
  unfold downCrossings
  rw [crossDown_cons2, List.getLast?_cons_cons]
  by_cases hlast : (c :: rest).getLast?.getD false
  · cases c <;> simp [hlast, List.map_map]
  · cases c <;> simp [hlast, List.map_map]

theorem upCrossings_cons_TF (rest : List Bool) :
    upCrossings (true :: false :: rest) = 0 :: (upCrossings (false :: rest)).map (fun i => i + 1) := by
  unfold upCrossings
  rw [crossUp_cons2]
  simp [List.map_map]

theorem downCrossings_cons_TF (rest : List Bool) :
    downCrossings (true :: false :: rest) = 0 :: (downCrossings (false :: rest)).map (fun i => i + 1) := by
  unfold downCrossings
  rw [crossDown_cons2, List.getLast?_cons_cons]
  by_cases hlast : (false :: rest).getLast?.getD false
  · simp [hlast, List.map_map]
  · simp [hlast, List.map_map]

theorem upCrossings_cons_TT (rest : List Bool) :
    upCrossings (true :: true :: rest)
      = 0 :: ((upCrossings (true :: rest)).tail).map (fun i => i + 1) := by
  unfold upCrossings
  rw [crossUp_cons2]
  simp [List.map_map]

theorem downCrossings_cons_TT (rest : List Bool) :
    downCrossings (true :: true :: rest) = (downCrossings (true :: rest)).map (fun i => i + 1) := by
  unfold downCrossings
  rw [crossDown_cons2, List.getLast?_cons_cons]
  by_cases hlast : (true :: rest).getLast?.getD false
  · simp [hlast, List.map_map]
  · simp [hlast, List.map_map]

/-- The five properties a crossing pair `(u, d)` asserts about the trace
`fd`: ordered bounds inside the trace, all-true on `[u, d]`, and false (or
the trace boundary) on both sides. -/
def RunPair (fd : List Bool) (pr : Nat × Nat) : Prop :=
  pr.1 ≤ pr.2 ∧ pr.2 < fd.length ∧
  (∀ i, pr.1 ≤ i → i ≤ pr.2 → fd.getD i false = true) ∧
  (pr.1 = 0 ∨ fd.getD (pr.1 - 1) false = false) ∧
  (pr.2 = fd.length - 1 ∨ fd.getD (pr.2 + 1) false = false)

theorem runPair_shift (g : List Bool) (b : Bool) (q : Nat × Nat)
    (hq : RunPair g q) (hhead : q.1 = 0 → b = false) :
    RunPair (b :: g) (q.1 + 1, q.2 + 1) := by
  obtain ⟨hud, hdn, hrun, hleft, hright⟩ := hq
  refine ⟨by omega, by simp [List.length_cons]; omega, ?_, ?_, ?_⟩
  · intro i h1 h2
    cases i with
    | zero => omega
    | succ j =>
      rw [List.getD_cons_succ]
      exact hrun j (by omega) (by omega)
  · refine Or.inr ?_
    show (b :: g).getD (q.1 + 1 - 1) false = false
    have he : q.1 + 1 - 1 = q.1 := by omega
    rw [he]
    cases hq1 : q.1 with
    | zero => rw [List.getD_cons_zero]; exact hhead hq1
    | succ k =>
      rw [List.getD_cons_succ]
      rcases hleft with h0 | hl
      · exact absurd h0 (by omega)
      · rw [hq1] at hl
        simpa using hl
  · rcases hright with h0 | hr
    · refine Or.inl ?_
      simp only [List.length_cons]
      omega
    · refine Or.inr ?_
      rw [List.getD_cons_succ]
      exact hr

/-- Full structure of the crossing pairing on a nonempty boolean trace:
the up- and down-crossing lists have equal length, and zipping them
enumerates exactly the maximal true runs of the trace, in order: each pair
satisfies `RunPair`, consecutive pairs are separated, and every true
position is covered by some pair. -/
theorem crossings_spec : ∀ (fd : List Bool), fd ≠ [] →
    ((upCrossings fd).length = (downCrossings fd).length) ∧
    (∀ pr ∈ (upCrossings fd).zip (downCrossings fd), RunPair fd pr) ∧
    ((upCrossings fd).zip (downCrossings fd)).Pairwise (fun p q => p.2 < q.1) ∧
    (∀ i, i < fd.length → fd.getD i false = true →
        ∃ pr ∈ (upCrossings fd).zip (downCrossings fd), pr.1 ≤ i ∧ i ≤ pr.2)
  | [], h => absurd rfl h
  | [b], _ => by
    cases b
    · refine ⟨rfl, ?_, ?_, ?_⟩
      · intro pr hpr
        exact absurd hpr (List.not_mem_nil pr)
      · exact List.Pairwise.nil
      · intro i hi htrue
        have hi0 : i = 0 := by simp at hi; omega
        subst hi0
        exact absurd htrue (by simp)
    · refine ⟨rfl, ?_, ?_, ?_⟩
      · intro pr hpr
        have hpr' : pr = (0, 0) := List.mem_singleton.mp hpr
        subst hpr'
        refine ⟨le_refl 0, by simp, ?_, Or.inl rfl, Or.inl rfl⟩
        intro i h1 h2
        have : i = 0 := by omega
        subst this
        rfl
      · exact List.pairwise_singleton _ _
      · intro i hi _
        have hi0 : i = 0 := by simp at hi; omega
        subst hi0
        exact ⟨(0, 0), List.mem_singleton.mpr rfl, le_refl 0, le_refl 0⟩
  | false :: c :: rest, _ => by
    obtain ⟨ihlen, ihpair, ihsep, ihcov⟩ :=
      crossings_spec (c :: rest) (List.cons_ne_nil c rest)
    rw [upCrossings_cons_false, downCrossings_cons_false, List.zip_map]
    refine ⟨by simp [ihlen], ?_, ?_, ?_⟩
    · intro pr hpr
      rw [List.mem_map] at hpr
      obtain ⟨q, hq, hqe⟩ := hpr
      subst hqe
      have hshift := runPair_shift (c :: rest) false q (ihpair q hq) (fun _ => rfl)
      simpa [Prod.map] using hshift
    · rw [List.pairwise_map]
      refine ihsep.imp ?_
      intro p q h
      simpa [Prod.map] using Nat.succ_lt_succ h
    · intro i hi htrue
      cases i with
      | zero => exact absurd htrue (by simp)
      | succ j =>
        rw [List.getD_cons_succ] at htrue
        obtain ⟨pr, hpr, h1, h2⟩ := ihcov j
          (by simp only [List.length_cons] at hi ⊢; omega) htrue
        refine ⟨Prod.map (fun i => i + 1) (fun i => i + 1) pr,
          List.mem_map.mpr ⟨pr, hpr, rfl⟩, ?_, ?_⟩
        · simpa [Prod.map] using Nat.succ_le_succ h1
        · simpa [Prod.map] using Nat.succ_le_succ h2
  | true :: false :: rest, _ => by
    obtain ⟨ihlen, ihpair, ihsep, ihcov⟩ :=
      crossings_spec (false :: rest) (List.cons_ne_nil false rest)
    rw [upCrossings_cons_TF, downCrossings_cons_TF, List.zip_cons_cons, List.zip_map]
    have hq1pos : ∀ q ∈ (upCrossings (false :: rest)).zip (downCrossings (false :: rest)),
        q.1 ≠ 0 := by
      intro q hq h0
      obtain ⟨hud, _, hrun, _, _⟩ := ihpair q hq
      have := hrun 0 (by omega) (by omega)
      exact absurd this (by simp)
    refine ⟨by simp [ihlen], ?_, ?_, ?_⟩
    · intro pr hpr
      rcases List.mem_cons.mp hpr with hpr | hpr
      · subst hpr
        refine ⟨le_refl 0, by simp, ?_, Or.inl rfl, Or.inr rfl⟩
        intro i h1 h2
        have : i = 0 := by omega
        subst this
        rfl
      · rw [List.mem_map] at hpr
        obtain ⟨q, hq, hqe⟩ := hpr
        subst hqe
        have hshift := runPair_shift (false :: rest) true q (ihpair q hq)
          (fun h0 => absurd h0 (hq1pos q hq))
        simpa [Prod.map] using hshift
    · rw [List.pairwise_cons]
      constructor
      · intro q' hq'
        rw [List.mem_map] at hq'
        obtain ⟨q, _, hqe⟩ := hq'
        subst hqe
        simp [Prod.map]
      · rw [List.pairwise_map]
        refine ihsep.imp ?_
        intro p q h
        simpa [Prod.map] using Nat.succ_lt_succ h
    · intro i hi htrue
      cases i with
      | zero =>
        exact ⟨(0, 0), List.mem_cons_self _ _, le_refl 0, le_refl 0⟩
      | succ j =>
        rw [List.getD_cons_succ] at htrue
        obtain ⟨pr, hpr, h1, h2⟩ := ihcov j
          (by simp only [List.length_cons] at hi ⊢; omega) htrue
        refine ⟨Prod.map (fun i => i + 1) (fun i => i + 1) pr,
          List.mem_cons_of_mem _ (List.mem_map.mpr ⟨pr, hpr, rfl⟩), ?_, ?_⟩
        · simpa [Prod.map] using Nat.succ_le_succ h1
        · simpa [Prod.map] using Nat.succ_le_succ h2
  | true :: true :: rest, _ => by
    obtain ⟨ihlen, ihpair, ihsep, ihcov⟩ :=
      crossings_spec (true :: rest) (List.cons_ne_nil true rest)
    have hus : upCrossings (true :: rest) = 0 :: (crossUp (true :: rest)).map (fun i => i + 1) := by
      unfold upCrossings
      rfl
    obtain ⟨d1, dtail, hds⟩ : ∃ d1 dtail, downCrossings (true :: rest) = d1 :: dtail := by
      have hlen : (downCrossings (true :: rest)).length ≠ 0 := by
        rw [← ihlen, hus]
        simp
      cases hd : downCrossings (true :: rest) with
      | nil => rw [hd] at hlen; exact absurd rfl hlen
      | cons d1 dtail => exact ⟨d1, dtail, rfl⟩
    have hpairs' : (upCrossings (true :: rest)).zip (downCrossings (true :: rest))
        = (0, d1) :: ((crossUp (true :: rest)).map (fun i => i + 1)).zip dtail := by
      rw [hus, hds, List.zip_cons_cons]
    have hheadpair : RunPair (true :: rest) (0, d1) :=
      ihpair (0, d1) (by rw [hpairs']; exact List.mem_cons_self _ _)
    have htailmem : ∀ q ∈ ((crossUp (true :: rest)).map (fun i => i + 1)).zip dtail,
        q ∈ (upCrossings (true :: rest)).zip (downCrossings (true :: rest)) := by
      intro q hq
      rw [hpairs']
      exact List.mem_cons_of_mem _ hq
    have htailpos : ∀ q ∈ ((crossUp (true :: rest)).map (fun i => i + 1)).zip dtail,
        d1 < q.1 := by
      intro q hq
      rw [hpairs'] at ihsep
      exact (List.pairwise_cons.mp ihsep).1 q hq
    rw [upCrossings_cons_TT, downCrossings_cons_TT, hus, hds]
    simp only [List.tail_cons, List.map_cons, List.zip_cons_cons, List.zip_map]
    refine ⟨?_, ?_, ?_, ?_⟩
    · have := ihlen
      rw [hus, hds] at this
      simp only [List.length_cons, List.length_map] at this
      simp only [List.length_cons, List.length_map, List.length_zip]
      omega
    · intro pr hpr
      rcases List.mem_cons.mp hpr with hpr | hpr
      · subst hpr
        obtain ⟨hud, hdn, hrun, _, hright⟩ := hheadpair
        refine ⟨by omega, by simp only [List.length_cons] at hdn ⊢; omega, ?_, Or.inl rfl, ?_⟩
        · intro i h1 h2
          cases i with
          | zero => rfl
          | succ j =>
            rw [List.getD_cons_succ]
            exact hrun j (by omega) (by omega)
        · rcases hright with h0 | hr
          · refine Or.inl ?_
            simp only [List.length_cons] at h0 ⊢
            omega
          · refine Or.inr ?_
            rw [List.getD_cons_succ]
            exact hr
      · rw [List.mem_map] at hpr
        obtain ⟨q, hq, hqe⟩ := hpr
        subst hqe
        have hshift := runPair_shift (true :: rest) true q (ihpair q (htailmem q hq))
          (fun h0 => absurd (h0 ▸ htailpos q hq) (by omega))
        simpa [Prod.map] using hshift
    · rw [List.pairwise_cons]
      constructor
      · intro q' hq'
        rw [List.mem_map] at hq'
        obtain ⟨q, hq, hqe⟩ := hq'
        subst hqe
        have := htailpos q hq
        simp only [Prod.map]
        omega
      · rw [List.pairwise_map]
        have := ihsep
        rw [hpairs'] at this
        refine (List.pairwise_cons.mp this).2.imp ?_
        intro p q h
        simpa [Prod.map] using Nat.succ_lt_succ h
    · intro i hi htrue
      cases i with
      | zero =>
        exact ⟨(0, d1 + 1), List.mem_cons_self _ _, le_refl 0, by omega⟩
      | succ j =>
        rw [List.getD_cons_succ] at htrue
        obtain ⟨pr, hpr, h1, h2⟩ := ihcov j
          (by simp only [List.length_cons] at hi ⊢; omega) htrue
        rw [hpairs'] at hpr
        rcases List.mem_cons.mp hpr with hpr | hpr
        · subst hpr
          exact ⟨(0, d1 + 1), List.mem_cons_self _ _, by omega, by simp at h2 ⊢; omega⟩
        · refine ⟨Prod.map (fun i => i + 1) (fun i => i + 1) pr,
            List.mem_cons_of_mem _ (List.mem_map.mpr ⟨pr, hpr, rfl⟩), ?_, ?_⟩
          · simpa [Prod.map] using Nat.succ_le_succ h1
          · simpa [Prod.map] using Nat.succ_le_succ h2

/-! ### Assembly lemmas -/

theorem containsB_iff (c : List (ℚ × ℚ)) (t : ℚ) :
    containsB c t = true ↔ containsT c t := by
  simp [containsB, containsT, memIvl, List.any_eq_true]

theorem containsT_of_covered (sel obs : List (ℚ × ℚ))
    (hcov : ∀ p ∈ sel, Covered p obs) (t : ℚ) (h : containsT sel t) :
    containsT obs t := by
  obtain ⟨p, hp, hm⟩ := h
  obtain ⟨q, hq, hqa, hqb⟩ := hcov p hp
  exact ⟨q, hq, le_trans hqa hm.1, le_trans hm.2 hqb⟩

theorem mkEventData_ok (sel obs : List (ℚ × ℚ)) (e : EventData)
    (h : mkEventData sel obs = .ok e) :
    e.select_intervals = sel ∧ e.obs_intervals = obs ∧ ∀ p ∈ sel, Covered p obs := by
  unfold mkEventData at h
  by_cases hv : validSelB sel obs = true
  · rw [if_pos hv] at h
    cases h
    exact ⟨rfl, rfl, (validSelB_iff sel obs).mp hv⟩
  · rw [if_neg hv] at h
    exact Except.noConfusion h

theorem getD_lt_of_sorted (ts : List ℚ) (hs : ts.Pairwise (· < ·)) (i j : Nat)
    (hij : i < j) (hj : j < ts.length) : ts.getD i 0 < ts.getD j 0 := by
  have hi : i < ts.length := lt_trans hij hj
  rw [List.getD_eq_getElem ts 0 hi, List.getD_eq_getElem ts 0 hj]
  exact List.pairwise_iff_getElem.mp hs i j hi hj hij

theorem getD_le_of_sorted (ts : List ℚ) (hs : ts.Pairwise (· < ·)) (i j : Nat)
    (hij : i ≤ j) (hj : j < ts.length) : ts.getD i 0 ≤ ts.getD j 0 := by
  rcases Nat.lt_or_ge i j with h | h
  · exact (getD_lt_of_sorted ts hs i j h hj).le
  · have : i = j := by omega
    subst this
    exact le_refl _

/-- Characterization of `ContinuousData.filter_intervals` on a nonempty,
sorted, length-consistent `ContinuousData`, provided every matched
crossing pair maps to a time interval inside a single atomic of the
support (the condition `EventData.__init__` re-validates): the result is
exactly the `EventData` whose `select_intervals` are the zipped
up/down-crossing timestamps (one selection interval per matched pair,
nothing merged or dropped) and whose `obs_intervals` are unchanged. -/
theorem filter_intervals_spec {α : Type} (c : ContinuousData α) (f : α → Bool)
    (hne : c.data ≠ [])
    (hsorted : c.timestamps.Pairwise (· < ·))
    (hlen : c.data.length = c.timestamps.length)
    (hval : ∀ pr ∈ ((upCrossings (c.data.map f)).map (fun i => c.timestamps.getD i 0)).zip
        ((downCrossings (c.data.map f)).map (fun i => c.timestamps.getD i 0)),
        Covered pr c.obs_intervals) :
    c.filter_intervals f = .ok
      ⟨((upCrossings (c.data.map f)).map (fun i => c.timestamps.getD i 0)).zip
        ((downCrossings (c.data.map f)).map (fun i => c.timestamps.getD i 0)),
        c.obs_intervals⟩ ∧
    (upCrossings (c.data.map f)).length = (downCrossings (c.data.map f)).length ∧
    (∀ pr ∈ (upCrossings (c.data.map f)).zip (downCrossings (c.data.map f)),
        RunPair (c.data.map f) pr) ∧
    ((upCrossings (c.data.map f)).zip (downCrossings (c.data.map f))).Pairwise
      (fun p q => p.2 < q.1) := by
  have hfdne : c.data.map f ≠ [] := by
    intro h
    exact hne (List.map_eq_nil_iff.mp h)
  obtain ⟨hclen, hcpair, hcsep, _⟩ := crossings_spec (c.data.map f) hfdne
  have hfdlen : (c.data.map f).length = c.timestamps.length := by
    rw [List.length_map]; exact hlen
  have hbounds : ((upCrossings (c.data.map f)).map (fun i => c.timestamps.getD i 0)).zip
      ((downCrossings (c.data.map f)).map (fun i => c.timestamps.getD i 0))
      = ((upCrossings (c.data.map f)).zip (downCrossings (c.data.map f))).map
          (Prod.map (fun i => c.timestamps.getD i 0) (fun i => c.timestamps.getD i 0)) :=
    List.zip_map _ _ _ _
  have hcanon : Canonical (((upCrossings (c.data.map f)).map (fun i => c.timestamps.getD i 0)).zip
      ((downCrossings (c.data.map f)).map (fun i => c.timestamps.getD i 0))) := by
    rw [hbounds]
    constructor
    · rw [List.pairwise_map]
      refine List.Pairwise.imp_of_mem ?_ hcsep
      intro p q hp hq hlt
      obtain ⟨p1, p2⟩ := p
      obtain ⟨q1, q2⟩ := q
      obtain ⟨hud, hdn, _, _, _⟩ := hcpair (q1, q2) hq
      have hud' : q1 ≤ q2 := hud
      have hdn' : q2 < (c.data.map f).length := hdn
      have hlt' : p2 < q1 := hlt
      show c.timestamps.getD p2 0 < c.timestamps.getD q1 0
      exact getD_lt_of_sorted c.timestamps hsorted p2 q1 hlt'
        (by rw [← hfdlen]; omega)
    · intro x hx
      rw [List.mem_map] at hx
      obtain ⟨pr, hpr, hxe⟩ := hx
      subst hxe
      obtain ⟨pr1, pr2⟩ := pr
      obtain ⟨hud, hdn, _, _, _⟩ := hcpair (pr1, pr2) hpr
      have hud' : pr1 ≤ pr2 := hud
      have hdn' : pr2 < (c.data.map f).length := hdn
      show c.timestamps.getD pr1 0 ≤ c.timestamps.getD pr2 0
      exact getD_le_of_sorted c.timestamps hsorted pr1 pr2 hud'
        (by rw [← hfdlen]; omega)
  refine ⟨?_, hclen, hcpair, hcsep⟩
  rw [ContinuousData.filter_intervals]
  rw [if_neg (by rw [List.isEmpty_iff]; exact hne)]
  dsimp only
  rw [makeIntervals_fixpoint _ hcanon]
  rw [mkEventData, if_pos ((validSelB_iff _ _).mpr hval)]

theorem filter_intervals_ok {α : Type} (c : ContinuousData α) (f : α → Bool) (e : EventData)
    (h : c.filter_intervals f = .ok e) :
    e.obs_intervals = c.obs_intervals ∧
    ∀ p ∈ e.select_intervals, Covered p e.obs_intervals := by
  rw [ContinuousData.filter_intervals] at h
  by_cases hd : c.data.isEmpty
  · rw [if_pos hd] at h
    obtain ⟨hsel, hobs, _⟩ := mkEventData_ok _ _ _ h
    refine ⟨hobs, ?_⟩
    intro p hp
    rw [hsel] at hp
    exact absurd hp (List.not_mem_nil p)
  · rw [if_neg hd] at h
    dsimp only at h
    obtain ⟨hsel, hobs, hcov⟩ := mkEventData_ok _ _ _ h
    refine ⟨hobs, ?_⟩
    intro p hp
    rw [hsel] at hp
    rw [hobs]
    exact hcov p hp

/-! ### Uniqueness of the canonical form

The backend's `Interval` constructor canonicalizes by sorting atomics and
merging mergeable neighbours, while `insertIvl` maintains the canonical
form incrementally.  The following shows the two agree: a set of reals has
at most one representation as a sorted, separated list of nonempty closed
intervals, so every algorithm producing the canonical form yields the same
list. -/

theorem canonical_tail (p : ℚ × ℚ) (c : List (ℚ × ℚ)) (h : Canonical (p :: c)) :
    Canonical c :=
  ⟨(List.pairwise_cons.mp h.1).2, fun q hq => h.2 q (List.mem_cons_of_mem _ hq)⟩

theorem canonical_head_min (p : ℚ × ℚ) (c : List (ℚ × ℚ)) (h : Canonical (p :: c)) :
    ∀ q ∈ p :: c, p.1 ≤ q.1 := by
  intro q hq
  rcases List.mem_cons.mp hq with hq | hq
  · rw [hq]
  · exact le_trans (h.2 p (List.mem_cons_self _ _))
      ((List.pairwise_cons.mp h.1).1 q hq).le

theorem canonical_head_lt (p : ℚ × ℚ) (c : List (ℚ × ℚ)) (h : Canonical (p :: c)) :
    ∀ q ∈ c, p.2 < q.1 :=
  (List.pairwise_cons.mp h.1).1

theorem sem_head_upper_ge (l1 h1 l2 h2 : ℚ) (c' d' : List (ℚ × ℚ))
    (hc : Canonical ((l1, h1) :: c')) (hd : Canonical ((l2, h2) :: d'))
    (hsem : ∀ t, containsT ((l1, h1) :: c') t ↔ containsT ((l2, h2) :: d') t)
    (hl : l1 = l2) : h2 ≤ h1 := by
  by_contra hcon
  push_neg at hcon
  have hval1 : l1 ≤ h1 := hc.2 (l1, h1) (List.mem_cons_self _ _)
  have hval2 : l2 ≤ h2 := hd.2 (l2, h2) (List.mem_cons_self _ _)
  cases c' with
  | nil =>
    have hmem : containsT ((l2, h2) :: d') h2 :=
      ⟨(l2, h2), List.mem_cons_self _ _, hval2, le_refl h2⟩
    obtain ⟨q, hq, hm⟩ := (hsem h2).mpr hmem
    have hq1 : q = (l1, h1) := List.mem_singleton.mp hq
    rw [hq1] at hm
    exact absurd hm.2 (not_le.mpr hcon)
  | cons p3 c'' =>
    obtain ⟨l3, h3⟩ := p3
    have h13 : h1 < l3 := canonical_head_lt (l1, h1) ((l3, h3) :: c'') hc (l3, h3)
      (List.mem_cons_self _ _)
    have htailc : Canonical ((l3, h3) :: c'') := canonical_tail _ _ hc
    by_cases h23 : h2 < l3
    · have hmem : containsT ((l2, h2) :: d') h2 :=
        ⟨(l2, h2), List.mem_cons_self _ _, hval2, le_refl h2⟩
      obtain ⟨q, hq, hm⟩ := (hsem h2).mpr hmem
      rcases List.mem_cons.mp hq with hq | hq
      · rw [hq] at hm
        exact absurd hm.2 (not_le.mpr hcon)
      · have := canonical_head_min (l3, h3) c'' htailc q hq
        exact absurd hm.1 (not_le.mpr (lt_of_lt_of_le h23 this))
    · push_neg at h23
      set u : ℚ := (h1 + l3) / 2 with hu
      have hu1 : h1 < u := by rw [hu]; linarith
      have hu3 : u < l3 := by rw [hu]; linarith
      have hmem : containsT ((l2, h2) :: d') u :=
        ⟨(l2, h2), List.mem_cons_self _ _, by rw [← hl]; linarith, by linarith⟩
      obtain ⟨q, hq, hm⟩ := (hsem u).mpr hmem
      rcases List.mem_cons.mp hq with hq | hq
      · rw [hq] at hm
        exact absurd hm.2 (not_le.mpr hu1)
      · have := canonical_head_min (l3, h3) c'' htailc q hq
        exact absurd hm.1 (not_le.mpr (lt_of_lt_of_le hu3 this))

/-- The canonical form is unique: two sorted, separated lists of nonempty
closed intervals containing the same points are equal. -/
theorem canonical_unique : ∀ (c d : List (ℚ × ℚ)), Canonical c → Canonical d →
    (∀ t, containsT c t ↔ containsT d t) → c = d := by
  intro c
  induction c with
  | nil =>
    intro d _ hd hsem
    cases d with
    | nil => rfl
    | cons p2 d' =>
      obtain ⟨l2, h2⟩ := p2
      have hmem : containsT ((l2, h2) :: d') l2 :=
        ⟨(l2, h2), List.mem_cons_self _ _, le_refl l2,
          hd.2 (l2, h2) (List.mem_cons_self _ _)⟩
      exact absurd ((hsem l2).mpr hmem) (containsT_nil l2)
  | cons p1 c' ih =>
    obtain ⟨l1, h1⟩ := p1
    intro d hc hd hsem
    cases d with
    | nil =>
      have hmem : containsT ((l1, h1) :: c') l1 :=
        ⟨(l1, h1), List.mem_cons_self _ _, le_refl l1,
          hc.2 (l1, h1) (List.mem_cons_self _ _)⟩
      exact absurd ((hsem l1).mp hmem) (containsT_nil l1)
    | cons p2 d' =>
      obtain ⟨l2, h2⟩ := p2
      have hmem1 : containsT ((l1, h1) :: c') l1 :=
        ⟨(l1, h1), List.mem_cons_self _ _, le_refl l1,
          hc.2 (l1, h1) (List.mem_cons_self _ _)⟩
      have hmem2 : containsT ((l2, h2) :: d') l2 :=
        ⟨(l2, h2), List.mem_cons_self _ _, le_refl l2,
          hd.2 (l2, h2) (List.mem_cons_self _ _)⟩
      have hl12 : l2 ≤ l1 := by
        obtain ⟨q, hq, hm⟩ := (hsem l1).mp hmem1
        exact le_trans (canonical_head_min (l2, h2) d' hd q hq) hm.1
      have hl21 : l1 ≤ l2 := by
        obtain ⟨q, hq, hm⟩ := (hsem l2).mpr hmem2
        exact le_trans (canonical_head_min (l1, h1) c' hc q hq) hm.1
      have hleq : l1 = l2 := le_antisymm hl21 hl12
      have hh21 : h2 ≤ h1 := sem_head_upper_ge l1 h1 l2 h2 c' d' hc hd hsem hleq
      have hh12 : h1 ≤ h2 := sem_head_upper_ge l2 h2 l1 h1 d' c' hd hc
        (fun t => (hsem t).symm) hleq.symm
      have hheq : h1 = h2 := le_antisymm hh12 hh21
      have htails : ∀ t, containsT c' t ↔ containsT d' t := by
        intro t
        constructor
        · intro ht
          obtain ⟨p, hp, hm⟩ := ht
          have htl : h1 < t :=
            lt_of_lt_of_le (canonical_head_lt (l1, h1) c' hc p hp) hm.1
          obtain ⟨q, hq, hm2⟩ :=
            (hsem t).mp ⟨p, List.mem_cons_of_mem _ hp, hm⟩
          rcases List.mem_cons.mp hq with hq | hq
          · rw [hq] at hm2
            exact absurd hm2.2 (not_le.mpr (hheq ▸ htl))
          · exact ⟨q, hq, hm2⟩
        · intro ht
          obtain ⟨p, hp, hm⟩ := ht
          have htl : h2 < t :=
            lt_of_lt_of_le (canonical_head_lt (l2, h2) d' hd p hp) hm.1
          obtain ⟨q, hq, hm2⟩ :=
            (hsem t).mpr ⟨p, List.mem_cons_of_mem _ hp, hm⟩
          rcases List.mem_cons.mp hq with hq | hq
          · rw [hq] at hm2
            exact absurd hm2.2 (not_le.mpr (hheq ▸ htl))
          · exact ⟨q, hq, hm2⟩
      rw [hleq, hheq, ih d' (canonical_tail _ _ hc) (canonical_tail _ _ hd) htails]

/-- Consequence: any canonical list with the union semantics of a row list
is `makeIntervals` of those rows — the backend's sort-and-merge
canonicalization produces the same representation as the incremental
model. -/
theorem canonical_eq_makeIntervals (rows c : List (ℚ × ℚ)) (hc : Canonical c)
    (hsem : ∀ t, containsT c t ↔ ∃ r ∈ rows, memIvl t r) :
    c = makeIntervals rows :=
  canonical_unique c (makeIntervals rows) hc (makeIntervals_canonical rows)
    (fun t => (hsem t).trans (mem_makeIntervals rows t).symm)

/-! ### Concrete instances used by the claim theorems -/

def pC1 : PointData := ⟨[1], [(0, 2)], some [42]⟩

def cC3 : ContinuousData ℚ := ⟨[10, 11, 12, 13, 14, 15], [0, 1, 2, 5, 6, 7], [(0, 2), (5, 7)]⟩

def cC3e : ContinuousData ℚ := ⟨[10, 11, 12], [0, 1, 2], [(0, 2)]⟩

def cC4 : ContinuousData ℚ := ⟨[0, 0, 5, 5, 5, 0, 0], [0, 1, 2, 3, 4, 5, 6], [(0, 6)]⟩

def cC4gap : ContinuousData ℚ := ⟨[1, 1], [0, 5], [(0, 1), (5, 6)]⟩

/-! ### Claim theorems -/

/-- Claim C1, counterexample: `PointData.time_query` does not carry marks
over to the result.  For the point process `pC1`, which carries the mark
list `[42]`, querying with a window that keeps its single event returns
the surviving event but `marks = none` — not the claimed aligned
subsequence `some [42]`. -/
theorem C1_counterexample :
    pC1.marks = some [42] ∧
    (pC1.time_query (Query.ti [(0, 2)])).event_times = [1] ∧
    (pC1.time_query (Query.ti [(0, 2)])).marks = none ∧
    (pC1.time_query (Query.ti [(0, 2)])).marks ≠ some [42] :=
  ⟨rfl, rfl, rfl, fun h => Option.noConfusion h⟩

/-- Claim C1, amended: for every `PointData` and every query that is a
`TimeIntervals` or an `EventData` (whose `select_intervals` act as the
query window), `time_query` returns a `PointData` whose `obs_intervals`
are the intersection of the original support with the query window (both
as the constructed value and semantically), whose `event_times` are
exactly the subsequence of the original event times lying in the query
window (membership in the query window, not in the intersected
`obs_intervals`) — but the result never carries marks: the marks of the
input, if any, are dropped, not subset. -/
theorem C1_time_query_amended (p : PointData) (q : Query) :
    (p.time_query q).obs_intervals = interIvls p.obs_intervals q.window ∧
    (∀ t : ℚ, containsT (p.time_query q).obs_intervals t ↔
        containsT p.obs_intervals t ∧ containsT q.window t) ∧
    (p.time_query q).event_times
      = p.event_times.filter (fun t => decide (containsT q.window t)) ∧
    (p.time_query q).marks = none := by
  refine ⟨rfl, ?_, ?_, rfl⟩
  · intro t
    exact mem_interIvls p.obs_intervals q.window t
  · show p.event_times.filter (fun t => containsB q.window t) = _
    apply List.filter_congr
    intro t _
    by_cases h : containsT q.window t
    · rw [(containsB_iff _ _).mpr h, decide_eq_true h]
    · have h1 : ¬ containsB q.window t = true := fun hb => h ((containsB_iff _ _).mp hb)
      rw [Bool.not_eq_true] at h1
      rw [h1, decide_eq_false h]

/-- Claim C2: every transformation preserves the observation-support
invariant.  (1) If all events of a `PointData` lie in its support, all
events of a `time_query` result lie in the result's intersected support.
(2) If a `ContinuousData` has strictly ascending timestamps, every
timestamp of a `time_query` result lies in the result's support.  (3) A
successful `filter_intervals` result has its `select_intervals` contained
in its `obs_intervals`, atomically and semantically.  (4) For valid
`EventData` inputs, `intersect` and `union` always succeed (the
re-validation never fails) and the results satisfy the containment
invariant. -/
theorem C2_invariant_preservation :
    (∀ (p : PointData) (q : Query),
        (∀ t ∈ p.event_times, containsT p.obs_intervals t) →
        ∀ t ∈ (p.time_query q).event_times,
          containsT (p.time_query q).obs_intervals t) ∧
    (∀ (c : ContinuousData ℚ) (q : Query) (r : ContinuousData ℚ),
        c.timestamps.Pairwise (· < ·) →
        c.time_query q = .ok r →
        ∀ t ∈ r.timestamps, containsT r.obs_intervals t) ∧
    (∀ (c : ContinuousData ℚ) (f : ℚ → Bool) (e : EventData),
        c.filter_intervals f = .ok e →
        (∀ p ∈ e.select_intervals, Covered p e.obs_intervals) ∧
        (∀ t : ℚ, containsT e.select_intervals t → containsT e.obs_intervals t)) ∧
    (∀ (e1 e2 : EventData),
        (∀ p ∈ e1.select_intervals, Covered p e1.obs_intervals) →
        (∀ p ∈ e2.select_intervals, Covered p e2.obs_intervals) →
        (∃ e, e1.intersect e2 = .ok e ∧
          ∀ p ∈ e.select_intervals, Covered p e.obs_intervals) ∧
        (∃ e, e1.union e2 = .ok e ∧
          ∀ p ∈ e.select_intervals, Covered p e.obs_intervals)) := by
  refine ⟨?_, ?_, ?_, ?_⟩
  · intro p q hinv t ht
    have ht' := List.mem_filter.mp ht
    show containsT (interIvls p.obs_intervals q.window) t
    rw [mem_interIvls]
    exact ⟨hinv t ht'.1, (containsB_iff _ _).mp ht'.2⟩
  · intro c q r hs hok t ht
    obtain ⟨hobs, hts, _⟩ := ContinuousData.time_query_spec c q r hs hok
    rw [hts] at ht
    rw [List.mem_flatMap] at ht
    obtain ⟨p, hp, htf⟩ := ht
    have hmf := List.mem_filter.mp htf
    have hcond := hmf.2
    simp only [Bool.and_eq_true, decide_eq_true_eq] at hcond
    rw [hobs]
    exact ⟨p, hp, hcond⟩
  · intro c f e hok
    obtain ⟨_, hcov⟩ := filter_intervals_ok c f e hok
    exact ⟨hcov, fun t ht => containsT_of_covered _ _ hcov t ht⟩
  · intro e1 e2 h1 h2
    constructor
    · refine ⟨_, EventData.intersect_ok e1 e2 h1 h2, ?_⟩
      obtain ⟨hsel, hobs, hcov⟩ := mkEventData_ok _ _ _ (EventData.intersect_ok e1 e2 h1 h2)
      intro p hp
      rw [hsel] at hp
      rw [hobs]
      exact hcov p hp
    · refine ⟨_, EventData.union_ok e1 e2 h1 h2, ?_⟩
      obtain ⟨hsel, hobs, hcov⟩ := mkEventData_ok _ _ _ (EventData.union_ok e1 e2 h1 h2)
      intro p hp
      rw [hsel] at hp
      rw [hobs]
      exact hcov p hp

theorem C2_invariant_preservation_witness :
    containsT ((PointData.time_query ⟨[1], [(0, 2)], none⟩ (Query.ti [(0, 3)])).obs_intervals) 1 ∧
    containsT ([((0 : ℚ), 3)]) 1 ∧
    containsT ([((0 : ℚ), 0)]) 0 ∧
    (∃ e, EventData.intersect ⟨[(0, 1)], [(0, 2)]⟩ ⟨[(1, 3)], [(0, 4)]⟩ = .ok e ∧
      ∀ p ∈ e.select_intervals, Covered p e.obs_intervals) := by
  have h := C2_invariant_preservation
  refine ⟨?_, ?_, ?_, ?_⟩
  · exact h.1 ⟨[1], [(0, 2)], none⟩ (Query.ti [(0, 3)]) (by decide) 1 (by decide)
  · exact h.2.1 ⟨[10, 20], [1, 2], [(0, 3)]⟩ (Query.ti [(0, 3)])
      ⟨[10, 20], [1, 2], [(0, 3)]⟩ (by decide) rfl 1 (by decide)
  · exact (h.2.2.1 ⟨[5], [0], [(0, 0)]⟩ (fun x => decide (2 < x))
      ⟨[(0, 0)], [(0, 0)]⟩ rfl).2 0 (by decide)
  · exact (h.2.2.2 ⟨[(0, 1)], [(0, 2)]⟩ ⟨[(1, 3)], [(0, 4)]⟩ (by decide) (by decide)).1

/-- Claim C3 (the code has a bug in the empty case): on strictly ascending
timestamps, every successful `time_query` intersects the support with the
query window and, for each canonical interval `[lo, hi]` of the
intersection, takes the samples from the first timestamp `≥ lo` through
the last one `≤ hi` (closed on both ends), concatenated in interval order;
in the scenario with `obs_intervals [[0,2],[5,7]]`, timestamps
`[0,1,2,5,6,7]` and query window `[[0,7]]` all 6 samples come back in
order with the support unchanged.  But an empty intersection does NOT
yield empty data: the result constructor treats the falsy empty
`obs_intervals` as absent and indexes `timestamps[0]` of the empty sliced
array, raising `IndexError`. -/
theorem C3_time_query_slicing :
    (∀ (c : ContinuousData ℚ) (q : Query) (r : ContinuousData ℚ),
        c.timestamps.Pairwise (· < ·) → c.time_query q = .ok r →
        r.obs_intervals = interIvls c.obs_intervals q.window ∧
        r.timestamps = (interIvls c.obs_intervals q.window).flatMap
          (fun p => c.timestamps.filter (fun t => decide (p.1 ≤ t) && decide (t ≤ p.2))) ∧
        r.data = (interIvls c.obs_intervals q.window).flatMap
          (fun p => pySlice (c.timestamps.countP (fun t => decide (t < p.1)))
            (c.timestamps.countP (fun t => decide (t ≤ p.2))) c.data)) ∧
    cC3.time_query (Query.ti [(0, 7)]) = .ok cC3 ∧
    cC3e.time_query (Query.ti [(5, 7)]) = .error .indexError :=
  ⟨fun c q r hs hok => ContinuousData.time_query_spec c q r hs hok, rfl, rfl⟩

theorem C3_time_query_slicing_witness :
    cC3.obs_intervals = interIvls cC3.obs_intervals [(0, 7)] ∧
    cC3.timestamps = (interIvls cC3.obs_intervals [(0, 7)]).flatMap
      (fun p => cC3.timestamps.filter (fun t => decide (p.1 ≤ t) && decide (t ≤ p.2))) := by
  have h := C3_time_query_slicing.1 cC3 (Query.ti [(0, 7)]) cC3 (by decide) rfl
  exact ⟨h.1, h.2.1⟩

/-- Claim C4, amended: on a nonempty, strictly-ascending,
length-consistent `ContinuousData`, provided each matched (up, down) pair
maps to a time interval contained in a single atomic of the support
(otherwise the `EventData` re-validation raises a `ValueError`),
`filter_intervals` returns exactly the `EventData` whose
`select_intervals` are the zipped up/down crossing timestamps — one
selection interval per matched pair — with `obs_intervals` unchanged; the
up/down lists pair 1:1 (equal lengths), each pair delimits a maximal true
run of the predicate trace (true throughout, false or boundary on both
sides, synthesizing an up-crossing at index 0 when the trace starts true
and a down-crossing at the last index when it ends true), and pairs are
ordered and disjoint.  Zero samples yield an empty selection with the
support unchanged, and the threshold scenario `[0,0,5,5,5,0,0]` with
predicate `value > 2` yields `select_intervals [[2,4]]`. -/
theorem C4_filter_intervals_amended :
    (∀ (c : ContinuousData ℚ) (f : ℚ → Bool),
        c.data ≠ [] →
        c.timestamps.Pairwise (· < ·) →
        c.data.length = c.timestamps.length →
        (∀ pr ∈ ((upCrossings (c.data.map f)).map (fun i => c.timestamps.getD i 0)).zip
            ((downCrossings (c.data.map f)).map (fun i => c.timestamps.getD i 0)),
          Covered pr c.obs_intervals) →
        c.filter_intervals f = .ok
          ⟨((upCrossings (c.data.map f)).map (fun i => c.timestamps.getD i 0)).zip
            ((downCrossings (c.data.map f)).map (fun i => c.timestamps.getD i 0)),
            c.obs_intervals⟩ ∧
        (upCrossings (c.data.map f)).length = (downCrossings (c.data.map f)).length ∧
        (∀ pr ∈ (upCrossings (c.data.map f)).zip (downCrossings (c.data.map f)),
            RunPair (c.data.map f) pr) ∧
        ((upCrossings (c.data.map f)).zip (downCrossings (c.data.map f))).Pairwise
          (fun p q => p.2 < q.1)) ∧
    (∀ (c : ContinuousData ℚ) (f : ℚ → Bool), c.data = [] →
        c.filter_intervals f = .ok ⟨[], c.obs_intervals⟩) ∧
    cC4.filter_intervals (fun x => decide (2 < x)) = .ok ⟨[(2, 4)], [(0, 6)]⟩ := by
  refine ⟨fun c f h1 h2 h3 h4 => filter_intervals_spec c f h1 h2 h3 h4, ?_, rfl⟩
  intro c f hd
  rw [ContinuousData.filter_intervals, if_pos (List.isEmpty_iff.mpr hd)]
  rfl

/-- Claim C4, counterexample: `cC4gap` has two samples (both mapped to
true by the predicate) and a gapped support `[[0,1],[5,6]]`; the single
matched pair maps to the interval `[0, 5]`, which spans the gap, so the
`EventData` construction inside `filter_intervals` fails its containment
validation and raises `ValueError` — there is no result whose
`obs_intervals` equal the input's, contradicting the claim's universal
statement. -/
theorem C4_counterexample :
    cC4gap.data ≠ [] ∧
    cC4gap.filter_intervals (fun _ => true) = .error .valueError :=
  ⟨by decide, rfl⟩

theorem C4_filter_intervals_amended_witness :
    (upCrossings (cC4.data.map (fun x => decide (2 < x)))).length
      = (downCrossings (cC4.data.map (fun x => decide (2 < x)))).length :=
  (C4_filter_intervals_amended.1 cC4 (fun x => decide (2 < x))
    (by decide) (by decide) (by decide) (by decide)).2.1

/-- Claim C5 (code bug): in the `merge_obs_intervals=False` branch of
`PointData.mark_with_ContinuousData`, the loop body for an event inside
the continuous support is `result_marks.append(interpolator(event_t),
'extrapolate')`, a two-argument call to the one-argument `list.append`, so
it raises `TypeError` instead of attaching interpolated marks: the branch
fails whenever some event lies inside `continuous_data.obs_intervals`
(and its concrete documented use, events `[1, 3, 6]` against support
`[[0, 8]]`, errors on the first event). -/
theorem C5_noMerge_marking_crashes :
    noMergeMarkLoop [(0, 8)] [1, 3, 6] = .error .typeError ∧
    (∀ (obs : List (ℚ × ℚ)) (events : List ℚ),
        (∃ t ∈ events, containsT obs t) →
        ∃ msg, noMergeMarkLoop obs events = .error msg) := by
  refine ⟨rfl, ?_⟩
  intro obs events
  induction events with
  | nil =>
    rintro ⟨t, ht, _⟩
    exact absurd ht (List.not_mem_nil t)
  | cons t rest ih =>
    rintro ⟨s, hs, hc⟩
    simp only [noMergeMarkLoop]
    by_cases hb : containsB obs t = true
    · rw [if_pos hb]
      exact ⟨.typeError, rfl⟩
    · rw [if_neg hb]
      rcases List.mem_cons.mp hs with he | hm
      · subst he
        exact absurd ((containsB_iff obs s).mpr hc) hb
      · obtain ⟨msg, hmsg⟩ := ih ⟨s, hm, hc⟩
        rw [hmsg]
        exact ⟨msg, rfl⟩

theorem C5_noMerge_marking_crashes_witness :
    ∃ msg, noMergeMarkLoop [((0 : ℚ), 8)] [1] = .error msg :=
  C5_noMerge_marking_crashes.2 [(0, 8)] [1] ⟨1, by decide, by decide⟩

/-- Claim C6: constructing an `EventData` succeeds exactly when every
canonical interval of `select_intervals` lies within some canonical
interval of `obs_intervals`; otherwise it fails with a `ValueError`; an
empty selection is always accepted. -/
theorem C6_eventdata_validation :
    (∀ (sel obs : List (ℚ × ℚ)),
        ((∃ e, mkEventData sel obs = .ok e) ↔ ∀ p ∈ sel, Covered p obs) ∧
        (¬ (∀ p ∈ sel, Covered p obs) → mkEventData sel obs = .error .valueError)) ∧
    (∀ obs : List (ℚ × ℚ), mkEventData [] obs = .ok ⟨[], obs⟩) := by
  refine ⟨?_, fun obs => rfl⟩
  intro sel obs
  constructor
  · constructor
    · rintro ⟨e, he⟩
      exact (mkEventData_ok sel obs e he).2.2
    · intro hcov
      exact ⟨⟨sel, obs⟩, by rw [mkEventData, if_pos ((validSelB_iff sel obs).mpr hcov)]⟩
  · intro hncov
    rw [mkEventData, if_neg]
    intro hv
    exact hncov ((validSelB_iff sel obs).mp hv)

theorem C6_eventdata_validation_witness :
    mkEventData [((0 : ℚ), 7)] [(0, 2), (5, 7)] = .error .valueError ∧
    (∃ e, mkEventData [((1 : ℚ), 1)] [(0, 2)] = .ok e) :=
  ⟨(C6_eventdata_validation.1 _ _).2 (by decide),
    (C6_eventdata_validation.1 _ _).1.mpr (by decide)⟩

/-- Claim C7: canonicalization is a fixed point: for any bounds rows (each
with start ≤ end), constructing `TimeIntervals`, reading the array back
and constructing again yields the same canonical interval set, both as
the canonical list and through `to_array`. -/
theorem C7_canonicalization_idempotent (rows : List (ℚ × ℚ))
    (_hrows : ∀ r ∈ rows, r.1 ≤ r.2) :
    makeIntervals (makeIntervals rows) = makeIntervals rows ∧
    toArrayX (makeIntervals (makeIntervals rows)) = toArrayX (makeIntervals rows) := by
  have h := makeIntervals_fixpoint (makeIntervals rows) (makeIntervals_canonical rows)
  exact ⟨h, by rw [h]⟩

theorem C7_canonicalization_idempotent_witness :
    makeIntervals (makeIntervals [((1 : ℚ), 5), (0, 2), (7, 8)])
      = makeIntervals [((1 : ℚ), 5), (0, 2), (7, 8)] :=
  (C7_canonicalization_idempotent [((1 : ℚ), 5), (0, 2), (7, 8)] (by decide)).1

/-- Claim C8 (code bug): the `marks` guards of `PointData.__init__` are
broken.  A correctly aligned two-element marks array raises `ValueError`
(the bare `if marks:` asks numpy for the truth value of a multi-element
array); a one-element truthy marks array raises `AttributeError`
(`self.event_times` is read before it is assigned); and a one-element
falsy marks array is accepted even though it is misaligned with the two
events — no shape error is ever raised. -/
theorem C8_marks_constructor_bug :
    mkPointData [1, 2] [(0, 3)] (some [10, 20]) = .error .valueError ∧
    mkPointData [1] [(0, 3)] (some [5]) = .error .attributeError ∧
    mkPointData [1, 2] [(0, 3)] (some [0]) = .ok ⟨[1, 2], [(0, 3)], some [0]⟩ :=
  ⟨rfl, rfl, rfl⟩

/-- Claim C9, counterexample: constructing a `TimeIntervals` from the
single reversed row `[5, 3]` does not raise a validation error; the
backend treats the reversed pair as an empty interval, so the union is a
no-op and the result is silently the empty interval set (`len() == 0`). -/
theorem C9_counterexample :
    makeIntervals [((5 : ℚ), 3)] = [] ∧ tiLen (makeIntervals [((5 : ℚ), 3)]) = 0 :=
  ⟨rfl, rfl⟩

/-- Claim C9, amended: a bounds row with start > end does not raise; it is
an empty interval in the backend and is silently dropped — construction
behaves exactly as if the reversed rows had been filtered out. -/
theorem C9_reversed_rows_dropped (rows : List (ℚ × ℚ)) :
    makeIntervals rows = makeIntervals (rows.filter (fun r => decide (r.1 ≤ r.2))) := by
  have main : ∀ (rs acc : List (ℚ × ℚ)),
      rs.foldl unionStep acc
        = (rs.filter (fun r => decide (r.1 ≤ r.2))).foldl unionStep acc := by
    intro rs
    induction rs with
    | nil => intro acc; rfl
    | cons r rest ih =>
      intro acc
      rw [List.filter_cons]
      by_cases hr : r.1 ≤ r.2
      · rw [if_pos (decide_eq_true hr)]
        simp only [List.foldl_cons]
        exact ih (unionStep acc r)
      · rw [if_neg (by simpa using hr)]
        simp only [List.foldl_cons]
        have hstep : unionStep acc r = acc := by rw [unionStep, if_neg hr]
        rw [hstep]
        exact ih acc
  exact main rows []

/-- Claim C10: for an empty `TimeIntervals` (`len() == 0`), `to_array`
does not return an empty 0×2 array but leaks the backend's degenerate
empty representation as the single row `[+inf, -inf]`; `durations`
correspondingly returns the single value `-inf`; the backend length of the
empty set is 1 and `__len__` special-cases it to 0. -/
theorem C10_empty_representation :
    toArrayX [] = [(XR.pinf, XR.ninf)] ∧
    durationsX [] = [XR.ninf] ∧
    tiLen [] = 0 ∧
    backendLen [] = 1 ∧
    (∀ c : List (ℚ × ℚ), tiLen c = 0 →
      toArrayX c = [(XR.pinf, XR.ninf)] ∧ durationsX c = [XR.ninf]) := by
  refine ⟨rfl, rfl, rfl, rfl, ?_⟩
  intro c h
  cases c with
  | nil => exact ⟨rfl, rfl⟩
  | cons p l => simp [tiLen, backendLen] at h

theorem C10_empty_representation_witness :
    toArrayX ([] : List (ℚ × ℚ)) = [(XR.pinf, XR.ninf)] ∧
    durationsX ([] : List (ℚ × ℚ)) = [XR.ninf] :=
  C10_empty_representation.2.2.2.2 [] rfl

end NwbQuery
